import Mathlib

/-!
Verification of the merkle partial-proof library (`lightclient/proof`).

The development shallowly embeds the Rust sources:

* `src/path.rs`         — `PathElement`
* `src/node.rs`         — `Node`
* `src/error.rs`        — `Error`
* `src/backend.rs`      — `Backend` (sparse chunk store), `is_valid`, `fill`,
                          `refresh`, `hash_children`
* `src/merkle_tree_overlay/impls.rs` — the basic-type and collection overlay macros
* `src/proof.rs`        — `Proof::load`, `extract`, `get_bytes`, `set_bytes`
* `src/tests/simple_fixed_vector.rs` — the hand-derived overlay for `S { a: FixedVector<U256, U4> }`

The repository's `tree_arithmetic.rs` and `ser.rs` are declared in `lib.rs` but are
not present in the source tree; those definitions are modelled from the spec
(§3, §4.2, §6) and are marked `Modelled from the spec:` below.  The crate's
hash (`sha2::Sha256`, an external dependency; spec §6 fixes it to SHA-256 of
the 64-byte concatenation) is implemented concretely.

Machine integers (`u64`, `u8`, `usize`) are embedded as `Nat`; all values
arising in the embedded operations stay far below `2^64`, and the one place
where Rust truncates (`as u8` in the basic-type overlay macro) is noted at its
definition.  Rust panics (out-of-bounds indexing, `expect`) are embedded as
`Option.none`; `Result<T, Error>` is embedded as `Except Error T`.
-/

set_option autoImplicit false
set_option maxRecDepth 100000

namespace MerkleProof

/-- Base-2 logarithm (floor) by structural recursion on a fuel bound, so that
it reduces definitionally; `n` itself is enough fuel since the argument at
least halves each step.  Agrees with `Nat.log2` (see `log2F_eq_log2`). -/
def log2F (fuel n : Nat) : Nat :=
  match fuel with
  | 0 => 0
  | fuel + 1 => if 2 ≤ n then log2F fuel (n / 2) + 1 else 0

/-- Floor base-2 logarithm (`nat_log2 0 = 0`). -/
def nat_log2 (n : Nat) : Nat := log2F n n

/-- Bytes are `Nat`s < 256; a chunk is a 32-byte value (`Vec<u8>` of length 32
in the source). -/
abbrev Chunk := List Nat

/-- Embeds `src/path.rs`: `PathElement` is either a field identifier (or the
reserved `"len"`) or a numeric index into a collection. -/
inductive PathElement where
  | Ident : String → PathElement
  | Index : Nat → PathElement
deriving DecidableEq, Repr

/-- Embeds `src/node.rs`: the descriptor returned by overlay lookup.  `size`
and `offset` are `u8` in the source; they are embedded as `Nat` (the `as u8`
cast in the collection macro never truncates because `min_repr_size ≤ 32`,
and the basic-type macro's `$bit_size / 32` is at most 8). -/
structure Node where
  index : Nat
  ident : PathElement
  size : Nat
  offset : Nat
  height : Nat
  is_list : Bool
deriving DecidableEq, Repr

/-- Embeds `src/error.rs`: the error enum.  Note that it has no
`MalformedProof` variant. -/
inductive Error where
  | InvalidPath : PathElement → Error
  | IndexOutOfBounds : Nat → Error
  | ChunkNotLoaded : Nat → Error
  | EmptyPath : Error
deriving DecidableEq, Repr

/-! ## Tree arithmetic

`tree_arithmetic.rs` is declared in `lib.rs` but missing from the source tree,
so the functions below are modelled from the spec. -/

/-- Modelled from the spec: `tree_arithmetic::zeroed` parent index,
`(i-1)/2` for `i > 0`, and `parent of 0 is 0` (spec §4.2). -/
def parent_index (i : Nat) : Nat := (i - 1) / 2

/-- Modelled from the spec: `tree_arithmetic::zeroed::expand_tree_index`.
Spec §4.3 (`is_valid`: "`H(left(n.parent) ‖ right(n.parent))` must equal
`parent`'s stored chunk") and the built-in tests of `backend.rs` fix the
triple `(left, right, parent)` to be the two children of `i`'s parent
together with the parent itself. -/
def expand_tree_index (i : Nat) : Nat × Nat × Nat :=
  let p := parent_index i
  (2 * p + 1, 2 * p + 2, p)

/-- Modelled from the spec: `tree_arithmetic::zeroed::sibling_index`, "the
other child of `i`'s parent" (spec §4.2), for `i > 0`. -/
def sibling_index (i : Nat) : Nat :=
  if i % 2 == 1 then i + 1 else i - 1

/-- Modelled from the spec: `tree_arithmetic::zeroed::left_most_leaf`,
`((root+1) << height) - 1` (spec §4.2). -/
def left_most_leaf (root height : Nat) : Nat :=
  ((root + 1) <<< height) - 1

/-- Modelled from the spec: `tree_arithmetic::zeroed::subtree_index_to_general`
(spec §4.2): treat `local` as a 0-based index inside a subtree rooted at
`subtree_root`; if `local = (1 <<< d) - 1 + k` at depth `d`, the result is
`(subtree_root + 1) <<< d - 1 + k`, i.e. `subtree_root * 2^d + local` with
`d = ⌊log2 (local + 1)⌋`. -/
def subtree_index_to_general (subtree_root localIdx : Nat) : Nat :=
  subtree_root * 2 ^ (nat_log2 (localIdx + 1)) + localIdx

/-- Modelled from the spec: `tree_arithmetic::next_power_of_two` (spec §4.2),
the least power of two that is `≥ n` (with `next_power_of_two 0 = 1`, as for
Rust's `u64::next_power_of_two`). -/
def next_power_of_two (n : Nat) : Nat :=
  if n ≤ 1 then 1 else 2 ^ (nat_log2 (n - 1) + 1)

/-- Modelled from the spec: `tree_arithmetic::log_base_two` (spec §4.2),
defined by its callers only on exact powers of two; embedded as the floor
base-2 logarithm. -/
def log_base_two (n : Nat) : Nat := nat_log2 n

/-! ## The chunk store (`src/backend.rs`)

The Rust `Backend` wraps a `HashMap<NodeIndex, Vec<u8>>`; it is embedded as an
insertion-ordered association list.  `is_valid`, `fill` and `refresh` only
ever inspect the key set as a whole (and `fill`/`refresh` sort it), so the
embedding's key order is immaterial where the source's hash-map iteration
order is unspecified. -/

abbrev Backend := List (Nat × Chunk)

namespace Backend

/-- Embeds `Backend::get`. -/
def get (db : Backend) (index : Nat) : Option Chunk :=
  (db.find? (fun p => p.fst == index)).map (fun p => p.snd)

/-- Embeds `Backend::contains_node`. -/
def contains_node (db : Backend) (index : Nat) : Bool :=
  db.any (fun p => p.fst == index)

/-- Embeds `Backend::insert` (the returned previous value is unused by the
library and dropped here).  The association list keeps the freshly inserted
binding at the front and drops any older binding for the same key; this has
exactly the `HashMap::insert` observable semantics (`get`, `contains_node`,
and the key set), and the source never depends on the hash map's unspecified
iteration order. -/
def insert (db : Backend) (index : Nat) (chunk : Chunk) : Backend :=
  (index, chunk) :: db.filter (fun p => !(p.fst == index))

/-- Embeds `Backend::nodes`: the list of loaded node indices. -/
def nodes (db : Backend) : List Nat := db.map (fun p => p.fst)

end Backend

/-! ## SHA-256

The crate hashes with `sha2::Sha256` (an external dependency); spec §6 fixes
the hash to SHA-256 over the 64-byte concatenation.  The function is
implemented here concretely, on byte lists, with 32-bit words as `Nat`
reduced `% 2^32`. -/

namespace SHA256

/-- Rotate the 32-bit word `x` right by `n` positions. -/
def rotr (x n : Nat) : Nat := ((x >>> n) ||| (x <<< (32 - n))) % 4294967296

/-- The 64 SHA-256 round constants. -/
def K : List Nat :=
  [1116352408, 1899447441, 3049323471, 3921009573, 961987163,
   1508970993, 2453635748, 2870763221, 3624381080, 310598401,
   607225278, 1426881987, 1925078388, 2162078206, 2614888103,
   3248222580, 3835390401, 4022224774, 264347078, 604807628,
   770255983, 1249150122, 1555081692, 1996064986, 2554220882,
   2821834349, 2952996808, 3210313671, 3336571891, 3584528711,
   113926993, 338241895, 666307205, 773529912, 1294757372,
   1396182291, 1695183700, 1986661051, 2177026350, 2456956037,
   2730485921, 2820302411, 3259730800, 3345764771, 3516065817,
   3600352804, 4094571909, 275423344, 430227734, 506948616,
   659060556, 883997877, 958139571, 1322822218, 1537002063,
   1747873779, 1955562222, 2024104815, 2227730452, 2361852424,
   2428436474, 2756734187, 3204031479, 3329325298]

/-- The initial SHA-256 state. -/
def H0 : List Nat :=
  [1779033703, 3144134277, 1013904242, 2773480762, 1359893119,
   2600822924, 528734635, 1541459225]

/-- Big-endian 8-byte encoding of `n` (the message bit-length field). -/
def toBytes8 (n : Nat) : List Nat :=
  [n >>> 56 % 256, n >>> 48 % 256, n >>> 40 % 256, n >>> 32 % 256,
   n >>> 24 % 256, n >>> 16 % 256, n >>> 8 % 256, n % 256]

/-- Big-endian 4-byte encoding of a 32-bit word. -/
def toBytes4 (n : Nat) : List Nat :=
  [n >>> 24 % 256, n >>> 16 % 256, n >>> 8 % 256, n % 256]

/-- SHA-256 padding: append `0x80`, zeros to 56 mod 64, then the 64-bit
big-endian bit length. -/
def pad (msg : List Nat) : List Nat :=
  let L := msg.length
  msg ++ 0x80 :: List.replicate ((64 + 55 - L % 64) % 64) 0 ++ toBytes8 (8 * L)

/-- Group bytes into big-endian 32-bit words. -/
def toWords : List Nat → List Nat
  | a :: b :: c :: d :: rest => (((a <<< 24) ||| (b <<< 16) ||| (c <<< 8)) ||| d) :: toWords rest
  | _ => []

/-- Extend the 16-word message schedule by `n` further words; `acc` holds the
schedule so far in reverse (head = most recent word). -/
def extendW : Nat → List Nat → List Nat
  | 0, acc => acc
  | n + 1, acc =>
    let w2 := acc.getD 1 0
    let w7 := acc.getD 6 0
    let w15 := acc.getD 14 0
    let w16 := acc.getD 15 0
    let s0 := (rotr w15 7 ^^^ rotr w15 18) ^^^ (w15 >>> 3)
    let s1 := (rotr w2 17 ^^^ rotr w2 19) ^^^ (w2 >>> 10)
    extendW n (((w16 + s0 + w7 + s1) % 4294967296) :: acc)

/-- One round of the SHA-256 compression function; the state is the word list
`[a, b, c, d, e, f, g, h]` and the input pairs a schedule word with its round
constant. -/
def compressStep (st : List Nat) (wk : Nat × Nat) : List Nat :=
  let a := st.getD 0 0
  let b := st.getD 1 0
  let c := st.getD 2 0
  let d := st.getD 3 0
  let e := st.getD 4 0
  let f := st.getD 5 0
  let g := st.getD 6 0
  let h := st.getD 7 0
  let S1 := (rotr e 6 ^^^ rotr e 11) ^^^ rotr e 25
  let ch := (e &&& f) ^^^ ((e ^^^ 0xffffffff) &&& g)
  let temp1 := (h + S1 + ch + wk.snd + wk.fst) % 4294967296
  let S0 := (rotr a 2 ^^^ rotr a 13) ^^^ rotr a 22
  let maj := ((a &&& b) ^^^ (a &&& c)) ^^^ (b &&& c)
  let temp2 := (S0 + maj) % 4294967296
  [(temp1 + temp2) % 4294967296, a, b, c, (d + temp1) % 4294967296, e, f, g]

/-- Process one 64-byte block into the running state. -/
def processBlock (h : List Nat) (block : List Nat) : List Nat :=
  let w16 := toWords block
  let w := (extendW 48 w16.reverse).reverse
  let st := (w.zip K).foldl compressStep h
  (h.zip st).map (fun p => (p.fst + p.snd) % 4294967296)

/-- Split a padded message into 64-byte blocks (structural recursion on a
fuel bound so that the definition reduces definitionally; each step consumes
at least one byte, so `xs.length` is enough fuel). -/
def toBlocksGo : Nat → List Nat → List (List Nat)
  | 0, _ => []
  | _, [] => []
  | n + 1, x :: rest => ((x :: rest).take 64) :: toBlocksGo n ((x :: rest).drop 64)

/-- Split a padded message into 64-byte blocks. -/
def toBlocks (xs : List Nat) : List (List Nat) := toBlocksGo xs.length xs

/-- SHA-256 of a byte list, as a 32-byte list. -/
def sha256 (msg : List Nat) : List Nat :=
  (((toBlocks (pad msg)).foldl processBlock H0).map toBytes4).flatten

end SHA256

/-- Embeds `hash_children` (`src/backend.rs`): append `right` to `left` and
hash the result; spec §6 fixes the hash to SHA-256. -/
def hash_children (left right : Chunk) : Chunk :=
  SHA256.sha256 (left ++ right)

/-! ## The type overlay (`src/merkle_tree_overlay/`)

The Rust `MerkleTreeOverlay` trait is a compile-time capability of a type; it
is embedded as a first-class structure value, one per type, so that the
macro-generated `impl`s become functions producing `Overlay` values and
nested generic types become nested applications. -/

deriving instance DecidableEq for Except

/-- Embeds the `MerkleTreeOverlay` trait (`src/merkle_tree_overlay/mod.rs`)
as a record of its four operations. -/
structure Overlay where
  get_node : List PathElement → Except Error Node
  height : Nat
  min_repr_size : Nat
  is_list : Bool

/-- Embeds `BYTES_PER_CHUNK` (`src/lib.rs`). -/
def BYTES_PER_CHUNK : Nat := 32

/-- Embeds `replace_index` (`src/merkle_tree_overlay/impls.rs`). -/
def replace_index (node : Node) (index : Nat) : Node :=
  { node with index := index }

/-- Embeds `impl_merkle_overlay_for_basic_type!` from
`src/merkle_tree_overlay/impls.rs`, parameterised by `$bit_size`.  Note that
the source's descriptor size is `($bit_size / 32) as u8` — division by 32,
not by 8 — exactly as written in the macro. -/
def basicOverlay (bit_size : Nat) : Overlay :=
  { height := 0
    min_repr_size := bit_size / 8
    is_list := false
    get_node := fun path =>
      match path with
      | [] => .ok { ident := PathElement.Ident "", index := 0, size := bit_size / 32,
                    offset := 0, height := 0, is_list := false }
      | p :: _ => .error (.InvalidPath p) }

/-- Embeds the `height()` body of `impl_merkle_overlay_for_collection_type!`
(`src/merkle_tree_overlay/impls.rs`): note the floor division
`N::to_u64() / items_per_chunk` (no ceiling) before rounding up to a power
of two. -/
def collectionHeight (T : Overlay) (N : Nat) (is_variable_length : Bool) : Nat :=
  let items_per_chunk := BYTES_PER_CHUNK / T.min_repr_size
  let num_leaves := next_power_of_two (N / items_per_chunk)
  let data_tree_height := log_base_two num_leaves
  if is_variable_length then data_tree_height + 1 else data_tree_height

/-- Embeds `impl_merkle_overlay_for_collection_type!`
(`src/merkle_tree_overlay/impls.rs`), parameterised by the element overlay
`T`, the capacity `N` and `$is_variable_length`; `VariableList<T, N>` is
`collectionOverlay T N true` and `FixedVector<T, N>` is
`collectionOverlay T N false`. -/
def collectionOverlay (T : Overlay) (N : Nat) (is_variable_length : Bool) : Overlay :=
  { height := collectionHeight T N is_variable_length
    min_repr_size :=
      if collectionHeight T N is_variable_length > 0 then 32 else T.min_repr_size * N
    is_list := is_variable_length
    get_node := fun path =>
      match path with
      | PathElement.Index position :: rest =>
        if position ≥ N then
          .error (.IndexOutOfBounds position)
        else
          let selfHeight := collectionHeight T N is_variable_length
          let first_leaf := left_most_leaf 0 selfHeight
          let items_per_chunk := BYTES_PER_CHUNK / T.min_repr_size
          let leaf_index := first_leaf + position / items_per_chunk
          if rest.isEmpty then
            .ok { ident := PathElement.Index position,
                  index := (1 <<< selfHeight) + position / items_per_chunk - 1,
                  size := T.min_repr_size,
                  offset := (position % items_per_chunk) * T.min_repr_size,
                  height := T.height,
                  is_list := T.is_list }
          else
            match T.get_node rest with
            | .error e => .error e
            | .ok node => .ok (replace_index node (subtree_index_to_general leaf_index node.index))
      | PathElement.Ident i :: _ =>
        if is_variable_length && i == "len" then
          .ok { ident := PathElement.Ident "len", index := 2, size := 32,
                offset := 0, height := 0, is_list := false }
        else
          .error (.InvalidPath (PathElement.Ident i))
      | [] => .error .EmptyPath }

/-! Sanity checks: the embedding reproduces the unit tests of
`src/merkle_tree_overlay/impls.rs` verbatim. -/

/-- Replays `variable_list_overlay` from `impls.rs`: leaves and the length
node of `VariableList<U256, U8>`. -/
theorem sanity_variable_list_overlay :
    (collectionOverlay (basicOverlay 256) 8 true).get_node [PathElement.Ident "len"] =
      .ok { ident := PathElement.Ident "len", index := 2, size := 32, offset := 0,
            height := 0, is_list := false } ∧
    (collectionOverlay (basicOverlay 256) 8 true).get_node [PathElement.Index 3] =
      .ok { ident := PathElement.Index 3, index := 18, size := 32, offset := 0,
            height := 0, is_list := false } ∧
    (collectionOverlay (basicOverlay 256) 8 true).get_node [PathElement.Index 9] =
      .error (.IndexOutOfBounds 9) := by
  refine ⟨by decide, by decide, by decide⟩

/-- Replays `nested_variable_list_overlay` from `impls.rs` for
`VariableList<VariableList<VariableList<U256, U2>, U2>, U4>`. -/
theorem sanity_nested_variable_list_overlay :
    (collectionOverlay (collectionOverlay (collectionOverlay (basicOverlay 256) 2 true) 2 true) 4 true).get_node
        [PathElement.Index 3, PathElement.Index 0, PathElement.Index 1] =
      .ok { ident := PathElement.Index 1, index := 176, size := 32, offset := 0,
            height := 0, is_list := false } ∧
    (collectionOverlay (collectionOverlay (collectionOverlay (basicOverlay 256) 2 true) 2 true) 4 true).get_node
        [PathElement.Index 0, PathElement.Ident "len"] =
      .ok { ident := PathElement.Ident "len", index := 16, size := 32, offset := 0,
            height := 0, is_list := false } ∧
    (collectionOverlay (collectionOverlay (collectionOverlay (basicOverlay 256) 2 true) 2 true) 4 true).get_node
        [PathElement.Index 3, PathElement.Index 2] =
      .error (.IndexOutOfBounds 2) := by
  refine ⟨by decide, by decide, by decide⟩

/-- Replays `simple_fixed_vector` and `another_simple_fixed_vector` from
`impls.rs`: heights and a leaf each for `FixedVector<U256, U8>` and
`FixedVector<u8, U32>`. -/
theorem sanity_fixed_vector_overlay :
    (collectionOverlay (basicOverlay 256) 8 false).height = 3 ∧
    (collectionOverlay (basicOverlay 256) 8 false).get_node [PathElement.Index 0] =
      .ok { ident := PathElement.Index 0, index := 7, size := 32, offset := 0,
            height := 0, is_list := false } ∧
    (collectionOverlay (basicOverlay 8) 32 false).height = 0 ∧
    (collectionOverlay (basicOverlay 8) 32 false).get_node [PathElement.Index 31] =
      .ok { ident := PathElement.Index 31, index := 0, size := 1, offset := 31,
            height := 0, is_list := false } ∧
    (collectionOverlay (basicOverlay 256) 8 false).get_node [PathElement.Ident "len"] =
      .error (.InvalidPath (PathElement.Ident "len")) := by
  refine ⟨by decide, by decide, by decide, by decide, by decide⟩

/-- Replays part of `nested_fixed_vector` from `impls.rs` for
`FixedVector<FixedVector<FixedVector<U256, U16>, U2>, U1>`. -/
theorem sanity_nested_fixed_vector_overlay :
    (collectionOverlay (collectionOverlay (collectionOverlay (basicOverlay 256) 16 false) 2 false) 1 false).get_node
        [PathElement.Index 0, PathElement.Index 1, PathElement.Index 15] =
      .ok { ident := PathElement.Index 15, index := 62, size := 32, offset := 0,
            height := 0, is_list := false } := by
  decide

/-! ## `is_valid`, `fill` and `refresh` (`src/backend.rs`)

The `fill` and `refresh` loops iterate over a worklist that grows while it is
being traversed (`while position < nodes.len()`).  They are embedded by
structural recursion on an explicit fuel argument so that they reduce
definitionally; `fill`'s fuel is proved sufficient below
(`fillGo_complete`), and `refresh`'s panics (out-of-bounds `nodes[position]`)
are modelled as `Option.none`. -/

/-- Embeds the per-node check of the `is_valid` loop (`src/backend.rs`): for
`node > 1` the triple `(left, right, parent)` of the node's family must all
be present and hash-consistent. -/
def checkNode (db : Backend) (node : Nat) : Bool :=
  if node > 1 then
    match expand_tree_index node with
    | (l, r, p) =>
      match Backend.get db l, Backend.get db r, Backend.get db p with
      | some left, some right, some parent => hash_children left right == parent
      | _, _, _ => false
  else true

/-- Embeds `Backend::is_valid`.  The source returns `false` from inside the
loop on the first failing family, and only afterwards evaluates
`self.get(0).expect("Tree to have root node")` — a panic (modelled as `none`)
when index 0 is absent.  The loop's iteration order over the hash map does
not affect the result, so it is folded into `List.all`. -/
def is_valid (db : Backend) (root : Chunk) : Option Bool :=
  if (Backend.nodes db).all (checkNode db) then
    match Backend.get db 0 with
    | some c => some (root == c)
    | none => none
  else some false

/-- Insert into a descending-sorted list, keeping it descending. -/
def insertDesc (x : Nat) : List Nat → List Nat
  | [] => [x]
  | y :: ys => if y < x then x :: y :: ys else y :: insertDesc x ys

/-- Sort descending (insertion sort), embedding
`nodes.sort_by(|a, b| b.cmp(a))`. -/
def sortDesc (xs : List Nat) : List Nat := xs.foldr insertDesc []

/-- Largest loaded index (0 for an empty store); used only to size `fill`'s
fuel. -/
def maxNode (db : Backend) : Nat := (Backend.nodes db).foldr max 0

/-- Embeds the `fill` worklist loop (`src/backend.rs`): `todo` is the part of
`nodes` from `position` on; a computed parent is appended to the end of the
worklist exactly as `nodes.push(parent)` does.  The two `ok_or` error
branches of the source are kept verbatim. -/
def fillGo : Nat → Backend → List Nat → Except Error Backend
  | 0, db, _ => .ok db
  | _ + 1, db, [] => .ok db
  | fuel + 1, db, n :: rest =>
    match expand_tree_index n with
    | (l, r, p) =>
      if Backend.contains_node db l && (Backend.contains_node db r && !Backend.contains_node db p) then
        match Backend.get db l with
        | none => .error (.ChunkNotLoaded l)
        | some cl =>
          match Backend.get db r with
          | none => .error (.ChunkNotLoaded r)
          | some cr =>
            fillGo fuel (Backend.insert db p (hash_children cl cr)) (rest ++ [p])
      else fillGo fuel db rest

/-- Fuel for `fill`: the loop executes one step per processed element, and at
most `maxNode + 1` parents can ever be created (each insertion is at a fresh
index `< maxNode db + 1`), so this bound is sufficient (`fillGo_complete`). -/
def fillFuel (db : Backend) : Nat := (Backend.nodes db).length + (maxNode db + 1)

/-- Embeds `Backend::fill`. -/
def fill (db : Backend) : Except Error Backend :=
  fillGo (fillFuel db) db (sortDesc (Backend.nodes db))

/-- Embeds the `refresh` worklist loop (`src/backend.rs`): the condition
`while nodes[position] > 0` indexes `nodes` before any bounds check, so
running past the end of the worklist is a panic — modelled as `none`.  Unlike
`fill`, the parent is recomputed and overwritten even when already present. -/
def refreshGo : Nat → Backend → List Nat → Option (Except Error Backend)
  | 0, _, _ => none
  | _ + 1, _, [] => none
  | fuel + 1, db, n :: rest =>
    if n > 0 then
      match expand_tree_index n with
      | (l, r, p) =>
        if Backend.contains_node db l && Backend.contains_node db r then
          match Backend.get db l with
          | none => some (.error (.ChunkNotLoaded l))
          | some cl =>
            match Backend.get db r with
            | none => some (.error (.ChunkNotLoaded r))
            | some cr =>
              refreshGo fuel (Backend.insert db p (hash_children cl cr)) (rest ++ [p])
        else refreshGo fuel db rest
    else some (.ok db)

/-- Fuel for `refresh`: each initially present index `n` can spawn a chain of
at most `n + 1` strictly descending parents, so the sum bounds the number of
loop steps; `+ 1` lets the empty worklist reach the out-of-bounds panic. -/
def refreshFuel (db : Backend) : Nat :=
  ((Backend.nodes db).map (fun n => n + 1)).sum + 1

/-- Embeds `Backend::refresh`. -/
def refresh (db : Backend) : Option (Except Error Backend) :=
  refreshGo (refreshFuel db) db (sortDesc (Backend.nodes db))

/-! ## The proof engine (`src/proof.rs`)

`Proof<T>` is a store plus a phantom overlay tag; its operations are embedded
as functions taking the overlay explicitly.  `SerializedProof` lives in the
repository's `ser.rs`, which is absent from the source tree. -/

/-- Modelled from the spec: `SerializedProof` (`src/ser.rs` is declared in
`lib.rs` but missing).  Spec §3/§6: an ordered list of `u64` tree `indices`
and a flat byte buffer `chunks`; the `k`-th 32-byte window belongs to
`indices[k]`. -/
structure SerializedProof where
  indices : List Nat
  chunks : List Nat
deriving DecidableEq, Repr

/-- Embeds the loop of `Proof::load`: for each enumerated index, copy the
`i`-th 32-byte window of `chunks` into the cache.  The Rust slice expression
`proof.chunks[i * 32..(i + 1) * 32]` panics (modelled `none`) when the buffer
is too short; there is no `MalformedProof` check. -/
def loadGo : Backend → List (Nat × Nat) → List Nat → Option Backend
  | db, [], _ => some db
  | db, (i, index) :: rest, chunks =>
    if (i + 1) * BYTES_PER_CHUNK ≤ chunks.length then
      loadGo (Backend.insert db index ((chunks.drop (i * BYTES_PER_CHUNK)).take BYTES_PER_CHUNK))
        rest chunks
    else none

/-- Embeds `Proof::load` (which always returns `Ok(())` when it does not
panic, so the cache alone is returned). -/
def load (cache : Backend) (proof : SerializedProof) : Option Backend :=
  loadGo cache proof.indices.enum proof.chunks

/-- Embeds `Proof::new`: load a `SerializedProof` into an empty cache (the
source `unwrap`s, and the panic case is inherited from `load`). -/
def Proof_new (proof : SerializedProof) : Option Backend :=
  load [] proof

/-- Embeds the `while visitor > 0` loop of `Proof::extract`: appends the
sibling of the visitor (with its chunk) unless both of the sibling's children
are already among the collected indices, then ascends.  Structural recursion
on fuel; `visitor + 1` is sufficient because the visitor strictly
decreases. -/
def extractGo : Nat → Backend → Nat → List Nat → List Nat → Except Error SerializedProof
  | 0, _, _, indices, chunks => .ok { indices := indices, chunks := chunks }
  | fuel + 1, cache, visitor, indices, chunks =>
    if visitor > 0 then
      let s := sibling_index visitor
      let l := 2 * s + 1
      let r := 2 * s + 2
      if indices.contains l && indices.contains r then
        extractGo fuel cache ((visitor + 1) / 2 - 1) indices chunks
      else
        match Backend.get cache s with
        | none => .error (.ChunkNotLoaded s)
        | some c => extractGo fuel cache ((visitor + 1) / 2 - 1) (indices ++ [s]) (chunks ++ c)
    else .ok { indices := indices, chunks := chunks }

/-- Embeds `Proof::extract`. -/
def extract (T : Overlay) (cache : Backend) (path : List PathElement) :
    Except Error SerializedProof :=
  if path.length == 0 then .error .EmptyPath
  else
    match T.get_node path with
    | .error e => .error e
    | .ok node =>
      match Backend.get cache node.index with
      | none => .error (.ChunkNotLoaded node.index)
      | some c => extractGo (node.index + 1) cache node.index [node.index] c

/-- Modelled from the spec: `bytes_at_path_helper` (`src/proof.rs`) pattern-
matches an older `Node` enum (`Composite`/`Length`/`Primitive`) than the
`Node` struct of `src/node.rs`; spec §4.4 fixes the resolution contract:
`T.get_node(path)` yields `(index, offset, size)` and the byte range is
`[offset, offset + size)` (the source's `Primitive` arm computes exactly
`(p.index, p.offset, p.offset + p.size)`, and its `Composite`/`Length` arms
`(index, 0, 32)` coincide with descriptors of `offset 0`, `size 32`). -/
def bytes_at_path_helper (T : Overlay) (path : List PathElement) :
    Except Error (Nat × Nat × Nat) :=
  if path.length == 0 then .error .EmptyPath
  else
    match T.get_node path with
    | .error e => .error e
    | .ok node => .ok (node.index, node.offset, node.offset + node.size)

/-- Embeds `Proof::get_bytes`: slice `[begin, end)` out of the resolved
chunk.  Rust's `chunk[begin..end]` panics (modelled `none`) when `end`
exceeds the chunk length. -/
def get_bytes (T : Overlay) (cache : Backend) (path : List PathElement) :
    Option (Except Error (List Nat)) :=
  if path.length == 0 then some (.error .EmptyPath)
  else
    match bytes_at_path_helper T path with
    | .error e => some (.error e)
    | .ok (index, first, last) =>
      match Backend.get cache index with
      | none => some (.error (.ChunkNotLoaded index))
      | some chunk =>
        if last ≤ chunk.length then some (.ok ((chunk.drop first).take (last - first)))
        else none

/-- Embeds the splice of `Proof::set_bytes`: byte `i` of the chunk becomes
`bytes[i - begin]` for `begin ≤ i < end` and is kept otherwise.  The Rust
index expression `bytes[i - begin]` panics (modelled `none`) when `bytes` is
too short. -/
def spliceChunk (chunk : List Nat) (first last : Nat) (bytes : List Nat) :
    Option (List Nat) :=
  chunk.enum.mapM (fun p =>
    if first ≤ p.fst ∧ p.fst < last then bytes[p.fst - first]? else some p.snd)

/-- Embeds `Proof::set_bytes`: splice `bytes` into the resolved range of the
resolved chunk and re-insert it; ancestors are not rehashed. -/
def set_bytes (T : Overlay) (cache : Backend) (path : List PathElement) (bytes : List Nat) :
    Option (Except Error Backend) :=
  if path.length == 0 then some (.error .EmptyPath)
  else
    match bytes_at_path_helper T path with
    | .error e => some (.error e)
    | .ok (index, first, last) =>
      match Backend.get cache index with
      | none => some (.error (.ChunkNotLoaded index))
      | some chunk =>
        match spliceChunk chunk first last bytes with
        | none => none
        | some newChunk => some (.ok (Backend.insert cache index newChunk))

/-- Embeds the hand-written overlay for the test struct
`S { a: FixedVector<U256, U4> }` of `src/tests/simple_fixed_vector.rs`. -/
def sOverlay : Overlay :=
  { height := 0
    min_repr_size := 32
    is_list := false
    get_node := fun path =>
      match path with
      | PathElement.Ident s :: rest =>
        if s == "a" then
          if rest.isEmpty then
            .ok { ident := PathElement.Ident "a", index := 0, offset := 0, size := 32,
                  height := (collectionOverlay (basicOverlay 256) 4 false).height,
                  is_list := false }
          else (collectionOverlay (basicOverlay 256) 4 false).get_node rest
        else .error (.InvalidPath (PathElement.Ident s))
      | p :: _ => .error (.InvalidPath p)
      | [] => .error .EmptyPath }

/-! ## Store lemmas -/

theorem get_insert_self (db : Backend) (i : Nat) (c : Chunk) :
    Backend.get (Backend.insert db i c) i = some c := by
  simp [Backend.insert, Backend.get, List.find?]

theorem find?_filter_ne (db : Backend) (i j : Nat) (hne : j ≠ i) :
    (db.filter (fun p => !(p.fst == i))).find? (fun p => p.fst == j) =
      db.find? (fun p => p.fst == j) := by
  induction db with
  | nil => rfl
  | cons hd tl ih =>
    obtain ⟨k, v⟩ := hd
    by_cases hh : k = i
    · subst hh
      have h1 : (k == j) = false := by
        simp only [beq_eq_false_iff_ne, ne_eq]
        exact fun hc => hne hc.symm
      simp [List.filter_cons, List.find?_cons, h1, ih]
    · by_cases hj : k = j
      · subst hj
        simp [List.filter_cons, List.find?_cons, beq_false_of_ne hh, hne]
      · simp [List.filter_cons, List.find?_cons, hh, beq_false_of_ne hj, ih]

theorem get_insert_ne (db : Backend) (i j : Nat) (c : Chunk) (hne : j ≠ i) :
    Backend.get (Backend.insert db i c) j = Backend.get db j := by
  unfold Backend.get Backend.insert
  rw [List.find?_cons_of_neg _ (by simp [Ne.symm hne]), find?_filter_ne db i j hne]

theorem contains_eq_isSome_get (db : Backend) (i : Nat) :
    Backend.contains_node db i = (Backend.get db i).isSome := by
  induction db with
  | nil => rfl
  | cons hd tl ih =>
    obtain ⟨k, v⟩ := hd
    by_cases hh : k = i
    · simp [Backend.contains_node, Backend.get, List.find?_cons, hh]
    · simp only [Backend.contains_node, Backend.get] at ih ⊢
      rw [List.any_cons, List.find?_cons_of_neg _ (by simp [hh])]
      simp [hh, ih]

theorem get_of_contains (db : Backend) (i : Nat) (h : Backend.contains_node db i = true) :
    ∃ c, Backend.get db i = some c := by
  rw [contains_eq_isSome_get] at h
  exact Option.isSome_iff_exists.mp h

theorem contains_of_get (db : Backend) (i : Nat) (c : Chunk)
    (h : Backend.get db i = some c) : Backend.contains_node db i = true := by
  rw [contains_eq_isSome_get, h]; rfl

theorem get_of_not_contains (db : Backend) (i : Nat)
    (h : Backend.contains_node db i = false) : Backend.get db i = none := by
  rw [contains_eq_isSome_get] at h
  exact Option.not_isSome_iff_eq_none.mp (by simp [h])

theorem contains_insert (db : Backend) (i j : Nat) (c : Chunk) :
    Backend.contains_node (Backend.insert db i c) j =
      ((j == i) || Backend.contains_node db j) := by
  by_cases hh : j = i
  · subst hh
    simp [contains_eq_isSome_get, get_insert_self]
  · simp [contains_eq_isSome_get, get_insert_ne db i j c hh, hh]

theorem mem_nodes_iff_contains (db : Backend) (i : Nat) :
    i ∈ Backend.nodes db ↔ Backend.contains_node db i = true := by
  simp only [Backend.nodes, Backend.contains_node, List.any_eq_true, List.mem_map,
    beq_iff_eq]

theorem insertDesc_perm (x : Nat) (l : List Nat) : (insertDesc x l).Perm (x :: l) := by
  induction l with
  | nil => exact List.Perm.refl _
  | cons y ys ih =>
    unfold insertDesc
    by_cases h : y < x
    · simp only [h, if_true]
      exact List.Perm.refl _
    · simp only [h, if_false]
      exact (ih.cons y).trans (List.Perm.swap x y ys)

theorem sortDesc_perm (xs : List Nat) : (sortDesc xs).Perm xs := by
  induction xs with
  | nil => exact List.Perm.refl _
  | cons x l ih => exact (insertDesc_perm x (sortDesc l)).trans (ih.cons x)

theorem mem_sortDesc (xs : List Nat) (a : Nat) : a ∈ sortDesc xs ↔ a ∈ xs :=
  (sortDesc_perm xs).mem_iff

theorem length_sortDesc (xs : List Nat) : (sortDesc xs).length = xs.length :=
  (sortDesc_perm xs).length_eq

/-! ## Claim C5: the basic-type overlay -/

/-- C5.  The claim says the empty-path descriptor's `size` equals the type's
width in bytes (`min_repr_size()`); the macro actually computes
`($bit_size / 32) as u8` — division by 32 instead of 8 — so `bool`, `u8` and
`u16` get size 0, `u32` gets 1, `u64` gets 2, `u128` gets 4 and `U256` gets 8.
This theorem evaluates the embedded code at the failing inputs (every other
field, and the `InvalidPath` clause for non-empty paths, agree with the
claim). -/
theorem primitive_get_node_size_div32 :
    (basicOverlay 8).min_repr_size = 1 ∧
    (basicOverlay 8).get_node [] =
      .ok { ident := PathElement.Ident "", index := 0, size := 0, offset := 0,
            height := 0, is_list := false } ∧
    (basicOverlay 32).min_repr_size = 4 ∧
    (basicOverlay 32).get_node [] =
      .ok { ident := PathElement.Ident "", index := 0, size := 1, offset := 0,
            height := 0, is_list := false } ∧
    (basicOverlay 256).min_repr_size = 32 ∧
    (basicOverlay 256).get_node [] =
      .ok { ident := PathElement.Ident "", index := 0, size := 8, offset := 0,
            height := 0, is_list := false } ∧
    (∀ (bit_size : Nat) (p : PathElement) (rest : List PathElement),
      (basicOverlay bit_size).get_node (p :: rest) = .error (.InvalidPath p)) :=
  ⟨rfl, by decide, rfl, by decide, rfl, by decide, fun _ _ _ => rfl⟩

/-! ## Claim C4: collection heights -/

/-- C4.  The claim requires `height = log2(next_power_of_two(ceil(N /
items_per_chunk)))` (and `+ 1` for lists); the source divides without
ceiling.  At `FixedVector<u8, U33>` (`items_per_chunk = 32`) the code yields
height 0 (and 1 for the `VariableList`), while the claimed ceiling formula
yields 1 (and 2). -/
theorem collection_height_floor_div :
    (collectionOverlay (basicOverlay 8) 33 false).height = 0 ∧
    (collectionOverlay (basicOverlay 8) 33 true).height = 1 ∧
    log_base_two (next_power_of_two ((33 + 32 - 1) / 32)) = 1 ∧
    log_base_two (next_power_of_two ((33 + 32 - 1) / 32)) + 1 = 2 := by
  refine ⟨by decide, by decide, by decide, by decide⟩

/-! ## Claim C6: out-of-bounds indices -/

/-- C6.  For `FixedVector<T, N>` and `VariableList<T, N>`, `get_node` on any
path whose first element is `Index k` with `k ≥ N` returns
`IndexOutOfBounds k`, regardless of the remainder of the path (the bound
check precedes every other computation in the collection macro). -/
theorem collection_get_node_out_of_bounds (T : Overlay) (N : Nat) (isVar : Bool)
    (k : Nat) (rest : List PathElement) (hk : N ≤ k) :
    (collectionOverlay T N isVar).get_node (PathElement.Index k :: rest) =
      .error (.IndexOutOfBounds k) := by
  simp [collectionOverlay, hk]

/-- Witness for C6 at `FixedVector<U256, U4>` and index 5. -/
theorem collection_get_node_out_of_bounds_witness :
    (collectionOverlay (basicOverlay 256) 4 false).get_node
        [PathElement.Index 5, PathElement.Index 0] =
      .error (.IndexOutOfBounds 5) :=
  collection_get_node_out_of_bounds (basicOverlay 256) 4 false 5 [PathElement.Index 0]
    (by decide)

/-! ## Claim C9: `refresh` on the empty store -/

/-- C9.  On an empty store `refresh`'s worklist is empty and the loop
condition `nodes[position] > 0` indexes out of bounds immediately, so the
call panics (modelled `none`) instead of returning. -/
theorem refresh_empty_faults : refresh ([] : Backend) = none := rfl

/-! ## Claim C8: `load` and malformed proofs -/

/-- The `k`-th 32-byte window of a chunk buffer. -/
def window (chunks : List Nat) (k : Nat) : List Nat :=
  (chunks.drop (k * BYTES_PER_CHUNK)).take BYTES_PER_CHUNK

/-- C8 counterexample: on the malformed proof `{ indices: [0], chunks: [] }`
(chunk buffer shorter than `32 · len(indices)`), `load` does not report any
error — the `Error` enum has no `MalformedProof` variant at all — it panics
on the out-of-range slice `chunks[0..32]` (modelled `none`). -/
theorem load_malformed_not_reported :
    load [] { indices := [0], chunks := [] } = none := rfl

theorem loadGo_short (idx : List Nat) :
    ∀ (j : Nat) (db : Backend) (chunks : List Nat),
      idx ≠ [] →
      chunks.length < BYTES_PER_CHUNK * (j + idx.length) →
      loadGo db (idx.enumFrom j) chunks = none := by
  induction idx with
  | nil => intro j db chunks hne _; exact absurd rfl hne
  | cons i rest ih =>
    intro j db chunks _ hlen
    simp only [List.enumFrom, loadGo]
    by_cases hg : (j + 1) * BYTES_PER_CHUNK ≤ chunks.length
    · rw [if_pos hg]
      cases rest with
      | nil =>
        exfalso
        simp only [List.length_cons, List.length_nil, BYTES_PER_CHUNK] at hlen hg
        omega
      | cons r rs =>
        refine ih (j + 1) _ chunks (by simp) ?_
        simp only [List.length_cons, BYTES_PER_CHUNK] at hlen ⊢
        omega
    · rw [if_neg hg]

theorem loadGo_spec (idx : List Nat) :
    ∀ (j : Nat) (db : Backend) (chunks : List Nat),
      BYTES_PER_CHUNK * (j + idx.length) ≤ chunks.length →
      ∃ db', loadGo db (idx.enumFrom j) chunks = some db' ∧
        (∀ i, i ∉ idx → Backend.get db' i = Backend.get db i) ∧
        (idx.Nodup →
          ∀ k, (hk : k < idx.length) →
            Backend.get db' (idx.get ⟨k, hk⟩) = some (window chunks (j + k))) := by
  induction idx with
  | nil =>
    intro j db chunks _
    exact ⟨db, rfl, fun _ _ => rfl, fun _ k hk => absurd hk (by simp)⟩
  | cons i rest ih =>
    intro j db chunks hlen
    simp only [List.enumFrom, loadGo]
    have hg : (j + 1) * BYTES_PER_CHUNK ≤ chunks.length := by
      simp only [List.length_cons, BYTES_PER_CHUNK] at hlen ⊢
      omega
    rw [if_pos hg]
    obtain ⟨db', hload, hother, hget⟩ :=
      ih (j + 1) (Backend.insert db i ((chunks.drop (j * BYTES_PER_CHUNK)).take BYTES_PER_CHUNK))
        chunks (by simp only [List.length_cons, BYTES_PER_CHUNK] at hlen ⊢; omega)
    refine ⟨db', hload, ?_, ?_⟩
    · intro i' hi'
      rw [hother i' (fun h => hi' (List.mem_cons_of_mem _ h)),
        get_insert_ne _ _ _ _ (fun h => hi' (by rw [h]; exact List.mem_cons_self _ _))]
    · intro hnd k hk
      have hnotmem : i ∉ rest := (List.nodup_cons.mp hnd).1
      match k with
      | 0 =>
        show Backend.get db' i = some (window chunks (j + 0))
        rw [hother i hnotmem, get_insert_self]
        simp [window]
      | k + 1 =>
        have hk' : k < rest.length := by simpa using hk
        have := hget (List.nodup_cons.mp hnd).2 k hk'
        show Backend.get db' (rest.get ⟨k, hk'⟩) = some (window chunks (j + (k + 1)))
        have harg : j + 1 + k = j + (k + 1) := by omega
        rw [this, harg]

/-- C8 amended.  `load` performs no validation and the `Error` type has no
`MalformedProof` variant: when `len(chunks) < 32 · len(indices)` the slice
`chunks[i*32..(i+1)*32]` panics (modelled `none`); when `len(chunks) ≥
32 · len(indices)` — in particular for every well-formed proof — `load`
succeeds, storing the `k`-th 32-byte window of `chunks` under `indices[k]`
(overwriting any pre-existing entry, later duplicates winning) and leaving
every other index untouched. -/
theorem load_no_validation (db : Backend) (sp : SerializedProof) :
    (sp.indices ≠ [] → sp.chunks.length < BYTES_PER_CHUNK * sp.indices.length →
      load db sp = none) ∧
    (BYTES_PER_CHUNK * sp.indices.length ≤ sp.chunks.length →
      ∃ db', load db sp = some db' ∧
        (∀ i, i ∉ sp.indices → Backend.get db' i = Backend.get db i) ∧
        (sp.indices.Nodup →
          ∀ k, (hk : k < sp.indices.length) →
            Backend.get db' (sp.indices.get ⟨k, hk⟩) = some (window sp.chunks k))) := by
  constructor
  · intro hne hlen
    exact loadGo_short sp.indices 0 db sp.chunks hne (by simpa using hlen)
  · intro hlen
    obtain ⟨db', h1, h2, h3⟩ := loadGo_spec sp.indices 0 db sp.chunks (by simpa using hlen)
    exact ⟨db', h1, h2, fun hnd k hk => by simpa using h3 hnd k hk⟩

/-- Witness for C8: a too-short buffer panics, and a well-formed singleton
proof stores its window. -/
theorem load_no_validation_witness :
    load [] { indices := [5], chunks := [] } = none ∧
    (∃ db', load [] { indices := [3], chunks := List.replicate 32 7 } = some db' ∧
      Backend.get db' 3 = some (List.replicate 32 7)) := by
  constructor
  · exact (load_no_validation [] { indices := [5], chunks := [] }).1 (by decide) (by decide)
  · obtain ⟨db', h1, _, h3⟩ :=
      (load_no_validation [] { indices := [3], chunks := List.replicate 32 7 }).2 (by decide)
    refine ⟨db', h1, ?_⟩
    have := h3 (by decide) 0 (by decide)
    simpa [window] using this

/-! ## Claim C2: `is_valid` -/

/-- Restates claim C2's validity condition in the claim's own terms (with its
`n > 0` bound): for every present index `n > 0`, the parent of `n` and both
children of that parent are present and the parent's stored chunk equals the
hash of the two children's chunks; and index 0 is present and equals the
supplied root. -/
def validClaimC2 (db : Backend) (root : Chunk) : Prop :=
  (∀ n ∈ Backend.nodes db, 0 < n →
    ∃ cl cr cp,
      Backend.get db (2 * parent_index n + 1) = some cl ∧
      Backend.get db (2 * parent_index n + 2) = some cr ∧
      Backend.get db (parent_index n) = some cp ∧
      hash_children cl cr = cp) ∧
  ∃ c0, Backend.get db 0 = some c0 ∧ root = c0

/-- The amended validity condition: identical to `validClaimC2` except that
the family check is only applied to present indices `n > 1`, matching the
source's `if node > 1` guard. -/
def validAmendedC2 (db : Backend) (root : Chunk) : Prop :=
  (∀ n ∈ Backend.nodes db, 1 < n →
    ∃ cl cr cp,
      Backend.get db (2 * parent_index n + 1) = some cl ∧
      Backend.get db (2 * parent_index n + 2) = some cr ∧
      Backend.get db (parent_index n) = some cp ∧
      hash_children cl cr = cp) ∧
  ∃ c0, Backend.get db 0 = some c0 ∧ root = c0

theorem checkNode_iff (db : Backend) (n : Nat) :
    checkNode db n = true ↔ (1 < n →
      ∃ cl cr cp,
        Backend.get db (2 * parent_index n + 1) = some cl ∧
        Backend.get db (2 * parent_index n + 2) = some cr ∧
        Backend.get db (parent_index n) = some cp ∧
        hash_children cl cr = cp) := by
  unfold checkNode expand_tree_index
  by_cases h : 1 < n
  · simp only [gt_iff_lt, h, if_true, forall_const]
    cases hl : Backend.get db (2 * parent_index n + 1) with
    | none =>
      simp only [hl]
      constructor
      · intro hfalse; cases hfalse
      · rintro ⟨cl, cr, cp, hcl, -, -, -⟩; cases hcl
    | some cl =>
      cases hr : Backend.get db (2 * parent_index n + 2) with
      | none =>
        simp only [hl, hr]
        constructor
        · intro hfalse; cases hfalse
        · rintro ⟨cl', cr', cp', -, hcr, -, -⟩; cases hcr
      | some cr =>
        cases hp : Backend.get db (parent_index n) with
        | none =>
          simp only [hl, hr, hp]
          constructor
          · intro hfalse; cases hfalse
          · rintro ⟨cl', cr', cp', -, -, hcp, -⟩; cases hcp
        | some cp =>
          simp only [hl, hr, hp, beq_iff_eq]
          constructor
          · intro heq; exact ⟨cl, cr, cp, rfl, rfl, rfl, heq⟩
          · rintro ⟨cl', cr', cp', hcl, hcr, hcp, heq⟩
            cases hcl; cases hcr; cases hcp
            exact heq
  · simp [h]

/-- C2 amended.  `is_valid(root)` returns `true` (and does not panic) exactly
when every present index `n > 1` — rather than the claim's `n > 0` — has its
parent and both of the parent's children present and hash-consistent, and the
chunk at index 0 is present and equals `root`. -/
theorem is_valid_iff (db : Backend) (root : Chunk) :
    is_valid db root = some true ↔ validAmendedC2 db root := by
  unfold is_valid validAmendedC2
  by_cases hall : (Backend.nodes db).all (checkNode db) = true
  · rw [if_pos hall]
    cases h0 : Backend.get db 0 with
    | none =>
      constructor
      · intro h; cases h
      · rintro ⟨-, c0, hc0, -⟩; cases hc0
    | some c =>
      constructor
      · intro h
        have hroot : root = c := by simpa using h
        refine ⟨?_, c, rfl, hroot⟩
        intro n hn hn1
        exact (checkNode_iff db n).mp (List.all_eq_true.mp hall n hn) hn1
      · rintro ⟨-, c0, hc0, hr⟩
        cases hc0
        simp [hr]
  · rw [if_neg hall]
    constructor
    · intro h; cases h
    · rintro ⟨hfam, -⟩
      exfalso
      apply hall
      rw [List.all_eq_true]
      intro n hn
      exact (checkNode_iff db n).mpr (fun h1 => hfam n hn h1)

/-- C2 counterexample: a store holding chunks only at indices 0 and 1 (both
all-zero).  `is_valid` returns `true` — index 1 is skipped by the `node > 1`
guard — although the claim's condition fails at the present index `n = 1`,
whose parent's right child (index 2) is absent. -/
theorem is_valid_claim_counterexample :
    is_valid [(0, List.replicate 32 0), (1, List.replicate 32 0)] (List.replicate 32 0) =
      some true ∧
    ¬ validClaimC2 [(0, List.replicate 32 0), (1, List.replicate 32 0)]
        (List.replicate 32 0) := by
  constructor
  · decide
  · rintro ⟨hfam, -⟩
    obtain ⟨cl, cr, cp, -, h2, -, -⟩ := hfam 1 (by decide) (by decide)
    have hnone : Backend.get [(0, List.replicate 32 0), (1, List.replicate 32 0)]
        (2 * parent_index 1 + 2) = none := by decide
    rw [hnone] at h2
    cases h2

/-! ## Claims C10 and C3: `fill` -/

theorem fillGo_cons (fuel : Nat) (db : Backend) (n : Nat) (rest : List Nat) :
    fillGo (fuel + 1) db (n :: rest) =
      if Backend.contains_node db (2 * parent_index n + 1) &&
         (Backend.contains_node db (2 * parent_index n + 2) &&
          !Backend.contains_node db (parent_index n)) then
        match Backend.get db (2 * parent_index n + 1) with
        | none => .error (.ChunkNotLoaded (2 * parent_index n + 1))
        | some cl =>
          match Backend.get db (2 * parent_index n + 2) with
          | none => .error (.ChunkNotLoaded (2 * parent_index n + 2))
          | some cr =>
            fillGo fuel (Backend.insert db (parent_index n) (hash_children cl cr))
              (rest ++ [parent_index n])
      else fillGo fuel db rest := rfl

theorem fillGo_cons_true (fuel : Nat) (db : Backend) (n : Nat) (rest : List Nat)
    (cl cr : Chunk)
    (hcl : Backend.get db (2 * parent_index n + 1) = some cl)
    (hcr : Backend.get db (2 * parent_index n + 2) = some cr)
    (hp : Backend.contains_node db (parent_index n) = false) :
    fillGo (fuel + 1) db (n :: rest) =
      fillGo fuel (Backend.insert db (parent_index n) (hash_children cl cr))
        (rest ++ [parent_index n]) := by
  rw [fillGo_cons,
    if_pos (by rw [contains_of_get _ _ _ hcl, contains_of_get _ _ _ hcr, hp]; rfl),
    hcl, hcr]

theorem fillGo_cons_false (fuel : Nat) (db : Backend) (n : Nat) (rest : List Nat)
    (hg : (Backend.contains_node db (2 * parent_index n + 1) &&
           (Backend.contains_node db (2 * parent_index n + 2) &&
            !Backend.contains_node db (parent_index n))) = false) :
    fillGo (fuel + 1) db (n :: rest) = fillGo fuel db rest := by
  rw [fillGo_cons, if_neg (by rw [hg]; exact Bool.false_ne_true)]

theorem fillGo_ok (fuel : Nat) :
    ∀ (db : Backend) (todo : List Nat), ∃ db', fillGo fuel db todo = .ok db' := by
  induction fuel with
  | zero => intro db todo; exact ⟨db, rfl⟩
  | succ fuel ih =>
    intro db todo
    cases todo with
    | nil => exact ⟨db, rfl⟩
    | cons n rest =>
      by_cases hg : (Backend.contains_node db (2 * parent_index n + 1) &&
          (Backend.contains_node db (2 * parent_index n + 2) &&
           !Backend.contains_node db (parent_index n))) = true
      · obtain ⟨hl, hr, -⟩ : Backend.contains_node db (2 * parent_index n + 1) = true ∧
            Backend.contains_node db (2 * parent_index n + 2) = true ∧
            Backend.contains_node db (parent_index n) = false := by
          simpa [Bool.and_eq_true] using hg
        obtain ⟨cl, hcl⟩ := get_of_contains _ _ hl
        obtain ⟨cr, hcr⟩ := get_of_contains _ _ hr
        rw [fillGo_cons, if_pos hg, hcl, hcr]
        exact ih _ _
      · rw [fillGo_cons_false fuel db n rest (Bool.not_eq_true _ |>.mp hg)]
        exact ih _ _

/-- C10.  `fill` never fails: although its signature allows `ChunkNotLoaded`
errors, each `get` of a child chunk is guarded by a preceding
`contains_node` check on the same index, so both error branches are
unreachable and `fill` always returns `Ok(())`. -/
theorem fill_always_ok (db : Backend) : ∃ db', fill db = .ok db' :=
  fillGo_ok (fillFuel db) db (sortDesc (Backend.nodes db))

/-- Number of indices below `B` absent from the store; the termination
measure of the `fill` worklist loop. -/
def countAbsent (db : Backend) (B : Nat) : Nat :=
  (List.range B).countP (fun i => !(Backend.contains_node db i))

theorem countAbsent_insert (db : Backend) (B p : Nat) (c : Chunk)
    (hp : p < B) (habs : Backend.contains_node db p = false) :
    countAbsent (Backend.insert db p c) B + 1 = countAbsent db B := by
  induction B with
  | zero => omega
  | succ B ih =>
    unfold countAbsent at ih ⊢
    rw [List.range_succ, List.countP_append, List.countP_append]
    by_cases hpB : p = B
    · subst hpB
      have h1 : (List.range p).countP (fun i => !(Backend.contains_node (Backend.insert db p c) i)) =
          (List.range p).countP (fun i => !(Backend.contains_node db i)) := by
        apply List.countP_congr
        intro i hi
        have : i ≠ p := Nat.ne_of_lt (List.mem_range.mp hi)
        rw [contains_insert, beq_false_of_ne this, Bool.false_or]
      rw [h1]
      have h2 : Backend.contains_node (Backend.insert db p c) p = true := by
        rw [contains_insert]; simp
      simp [List.countP_cons, h2, habs]
    · have hpB' : p < B := by omega
      have h3 : (List.countP (fun i => !(Backend.contains_node (Backend.insert db p c) i)) [B]) =
          (List.countP (fun i => !(Backend.contains_node db i)) [B]) := by
        simp only [List.countP_cons, List.countP_nil]
        rw [contains_insert, beq_false_of_ne (Ne.symm hpB), Bool.false_or]
      rw [h3]
      have := ih hpB'
      omega

theorem foldr_max_le (l : List Nat) (i : Nat) (h : i ∈ l) : i ≤ l.foldr max 0 := by
  induction l with
  | nil => cases h
  | cons x xs ih =>
    rcases List.mem_cons.mp h with h | h
    · subst h; exact Nat.le_max_left _ _
    · exact Nat.le_trans (ih h) (Nat.le_max_right _ _)

theorem parent_of_left_child (q : Nat) : parent_index (2 * q + 1) = q := by
  unfold parent_index; omega

theorem parent_of_right_child (q : Nat) : parent_index (2 * q + 2) = q := by
  unfold parent_index; omega

theorem fillGo_main (B : Nat) :
    ∀ (fuel : Nat) (db : Backend) (todo : List Nat),
      (∀ n ∈ todo, Backend.contains_node db n = true) →
      (∀ i, Backend.contains_node db i = true → i < B) →
      todo.length + countAbsent db B ≤ fuel →
      (∀ q, Backend.contains_node db (2 * q + 1) = true →
            Backend.contains_node db (2 * q + 2) = true →
            Backend.contains_node db q = false →
            (2 * q + 1) ∈ todo ∨ (2 * q + 2) ∈ todo) →
      ∃ db', fillGo fuel db todo = .ok db' ∧
        (∀ i c, Backend.get db i = some c → Backend.get db' i = some c) ∧
        (∀ i, Backend.contains_node db' i = true →
          Backend.contains_node db i = true ∨
          ∃ cl cr, Backend.get db' (2 * i + 1) = some cl ∧
                   Backend.get db' (2 * i + 2) = some cr ∧
                   Backend.get db' i = some (hash_children cl cr)) ∧
        (∀ q, Backend.contains_node db' (2 * q + 1) = true →
              Backend.contains_node db' (2 * q + 2) = true →
              Backend.contains_node db' q = true) := by
  intro fuel
  induction fuel with
  | zero =>
    intro db todo h1 h2 h3 h4
    have htodo : todo = [] := List.eq_nil_of_length_eq_zero (by omega)
    subst htodo
    refine ⟨db, rfl, fun i c h => h, fun i h => Or.inl h, ?_⟩
    intro q hl hr
    by_contra hq
    have hq' : Backend.contains_node db q = false := by
      revert hq; cases Backend.contains_node db q <;> simp
    rcases h4 q hl hr hq' with h | h <;> cases h
  | succ fuel ih =>
    intro db todo h1 h2 h3 h4
    cases todo with
    | nil =>
      refine ⟨db, rfl, fun i c h => h, fun i h => Or.inl h, ?_⟩
      intro q hl hr
      by_contra hq
      have hq' : Backend.contains_node db q = false := by
        revert hq; cases Backend.contains_node db q <;> simp
      rcases h4 q hl hr hq' with h | h <;> cases h
    | cons n rest =>
      have hn : Backend.contains_node db n = true := h1 n (List.mem_cons_self _ _)
      by_cases hg : (Backend.contains_node db (2 * parent_index n + 1) &&
          (Backend.contains_node db (2 * parent_index n + 2) &&
           !Backend.contains_node db (parent_index n))) = true
      · obtain ⟨hl, hr, hp⟩ : Backend.contains_node db (2 * parent_index n + 1) = true ∧
            Backend.contains_node db (2 * parent_index n + 2) = true ∧
            Backend.contains_node db (parent_index n) = false := by
          simpa [Bool.and_eq_true] using hg
        obtain ⟨cl, hcl⟩ := get_of_contains _ _ hl
        obtain ⟨cr, hcr⟩ := get_of_contains _ _ hr
        have hn1 : 1 ≤ n := by
          by_contra h0
          have : n = 0 := by omega
          subst this
          rw [show parent_index 0 = 0 from rfl] at hp
          rw [hn] at hp
          cases hp
        have hpn : parent_index n < n := by unfold parent_index; omega
        have hpB : parent_index n < B := Nat.lt_trans hpn (h2 n hn)
        rw [fillGo_cons_true fuel db n rest cl cr hcl hcr hp]
        have hget_p : Backend.get db (parent_index n) = none := get_of_not_contains _ _ hp
        have hlp : 2 * parent_index n + 1 ≠ parent_index n := by omega
        have hrp : 2 * parent_index n + 2 ≠ parent_index n := by omega
        obtain ⟨db', hrun, hpres, hcre, hcomp⟩ :=
          ih (Backend.insert db (parent_index n) (hash_children cl cr))
            (rest ++ [parent_index n])
            (by
              intro m hm
              rcases List.mem_append.mp hm with hm | hm
              · rw [contains_insert]
                rw [h1 m (List.mem_cons_of_mem _ hm), Bool.or_true]
              · have : m = parent_index n := by simpa using hm
                subst this
                rw [contains_insert]; simp)
            (by
              intro i hi
              rw [contains_insert] at hi
              rcases Bool.or_eq_true_iff.mp hi with hi | hi
              · have : i = parent_index n := by simpa using hi
                omega
              · exact h2 i hi)
            (by
              have hca := countAbsent_insert db B (parent_index n) (hash_children cl cr) hpB hp
              simp only [List.length_append, List.length_cons, List.length_nil] at h3 ⊢
              omega)
            (by
              intro q hql hqr hq
              have hqp : q ≠ parent_index n := by
                intro hqeq
                rw [hqeq, contains_insert] at hq
                simp at hq
              by_cases hlq : 2 * q + 1 = parent_index n
              · exact Or.inl (List.mem_append.mpr (Or.inr (by simp [hlq])))
              · by_cases hrq : 2 * q + 2 = parent_index n
                · exact Or.inr (List.mem_append.mpr (Or.inr (by simp [hrq])))
                · rw [contains_insert, beq_false_of_ne hlq, Bool.false_or] at hql
                  rw [contains_insert, beq_false_of_ne hrq, Bool.false_or] at hqr
                  rw [contains_insert, beq_false_of_ne hqp, Bool.false_or] at hq
                  rcases h4 q hql hqr hq with hmem | hmem
                  · rcases List.mem_cons.mp hmem with hmem | hmem
                    · exfalso
                      apply hqp
                      rw [← hmem, parent_of_left_child]
                    · exact Or.inl (List.mem_append.mpr (Or.inl hmem))
                  · rcases List.mem_cons.mp hmem with hmem | hmem
                    · exfalso
                      apply hqp
                      rw [← hmem, parent_of_right_child]
                    · exact Or.inr (List.mem_append.mpr (Or.inl hmem)))
        refine ⟨db', hrun, ?_, ?_, hcomp⟩
        · intro i c hc
          apply hpres
          have hip : i ≠ parent_index n := by
            intro hieq
            rw [hieq, hget_p] at hc
            cases hc
          rw [get_insert_ne _ _ _ _ hip]
          exact hc
        · intro i hi
          rcases hcre i hi with hdb2 | hex
          · rw [contains_insert] at hdb2
            rcases Bool.or_eq_true_iff.mp hdb2 with hieq | hid
            · have hieq : i = parent_index n := by simpa using hieq
              subst hieq
              refine Or.inr ⟨cl, cr, ?_, ?_, ?_⟩
              · exact hpres _ _ (by rw [get_insert_ne _ _ _ _ hlp]; exact hcl)
              · exact hpres _ _ (by rw [get_insert_ne _ _ _ _ hrp]; exact hcr)
              · exact hpres _ _ (get_insert_self _ _ _)
            · exact Or.inl hid
          · exact Or.inr hex
      · rw [fillGo_cons_false fuel db n rest (Bool.not_eq_true _ |>.mp hg)]
        apply ih db rest (fun m hm => h1 m (List.mem_cons_of_mem _ hm)) h2
          (by simp only [List.length_cons] at h3; omega)
        intro q hql hqr hq
        rcases h4 q hql hqr hq with hmem | hmem
        · rcases List.mem_cons.mp hmem with hmem | hmem
          · exfalso
            apply hg
            have hpq : parent_index n = q := by rw [← hmem]; exact parent_of_left_child q
            rw [hpq, hql, hqr, hq]
            rfl
          · exact Or.inl hmem
        · rcases List.mem_cons.mp hmem with hmem | hmem
          · exfalso
            apply hg
            have hpq : parent_index n = q := by rw [← hmem]; exact parent_of_right_child q
            rw [hpq, hql, hqr, hq]
            rfl
          · exact Or.inr hmem

/-- C3 amended.  After `fill()`: (i) it returns `Ok`; (ii) every entry present
before is still present with its chunk byte-for-byte unchanged — `fill`
never overwrites; (iii) every node both of whose children are present in the
result is itself present; and (iv) every node that `fill` itself *created*
carries exactly `H(left ‖ right)` of its children's chunks.  (The claim's
stronger form — that every such parent is hash-consistent — fails for
parents that pre-existed with stale chunks, which `fill` leaves untouched;
see the counterexample.) -/
theorem fill_spec (db : Backend) :
    ∃ db', fill db = .ok db' ∧
      (∀ i c, Backend.get db i = some c → Backend.get db' i = some c) ∧
      (∀ q, Backend.contains_node db' (2 * q + 1) = true →
            Backend.contains_node db' (2 * q + 2) = true →
            Backend.contains_node db' q = true) ∧
      (∀ i, Backend.contains_node db i = false → Backend.contains_node db' i = true →
        ∃ cl cr, Backend.get db' (2 * i + 1) = some cl ∧
                 Backend.get db' (2 * i + 2) = some cr ∧
                 Backend.get db' i = some (hash_children cl cr)) := by
  obtain ⟨db', hrun, hpres, hcre, hcomp⟩ :=
    fillGo_main (maxNode db + 1) (fillFuel db) db (sortDesc (Backend.nodes db))
      (fun n hn => (mem_nodes_iff_contains db n).mp ((mem_sortDesc _ n).mp hn))
      (fun i hi => Nat.lt_succ_of_le (foldr_max_le _ i ((mem_nodes_iff_contains db i).mpr hi)))
      (by
        rw [length_sortDesc]
        have hca : countAbsent db (maxNode db + 1) ≤ maxNode db + 1 := by
          unfold countAbsent
          exact le_trans (List.countP_le_length _) (by simp)
        unfold fillFuel
        omega)
      (fun q hl hr _ => Or.inl ((mem_sortDesc _ _).mpr ((mem_nodes_iff_contains db _).mpr hl)))
  exact ⟨db', hrun, hpres, hcomp,
    fun i hif hit => (hcre i hit).resolve_left (by simp [hif])⟩

/-- C3 counterexample: the store `{0 ↦ 0³², 1 ↦ 0³², 2 ↦ 0³²}` is left
unchanged by `fill` (the parent 0 already exists, and `fill` never
overwrites), yet node 0's chunk is not `H(left ‖ right)` of its children —
so "every internal node both of whose children are present is …
hash-consistent with those children" fails on pre-existing stale parents. -/
theorem fill_claim_counterexample :
    fill [(0, List.replicate 32 0), (1, List.replicate 32 0), (2, List.replicate 32 0)] =
      .ok [(0, List.replicate 32 0), (1, List.replicate 32 0), (2, List.replicate 32 0)] ∧
    Backend.contains_node
      [(0, List.replicate 32 0), (1, List.replicate 32 0), (2, List.replicate 32 0)]
      (2 * 0 + 1) = true ∧
    Backend.contains_node
      [(0, List.replicate 32 0), (1, List.replicate 32 0), (2, List.replicate 32 0)]
      (2 * 0 + 2) = true ∧
    Backend.get
      [(0, List.replicate 32 0), (1, List.replicate 32 0), (2, List.replicate 32 0)] 0 =
      some (List.replicate 32 0) ∧
    hash_children (List.replicate 32 0) (List.replicate 32 0) ≠ List.replicate 32 0 := by
  refine ⟨by decide, by decide, by decide, by decide, by decide⟩

/-- Witness for C3 at the store `{3 ↦ 1³², 4 ↦ 2³²}`: `fill` succeeds, the
leaves survive unchanged, and the parent 1 gets created. -/
theorem fill_spec_witness :
    ∃ db', fill [(3, List.replicate 32 1), (4, List.replicate 32 2)] = .ok db' ∧
      Backend.get db' 3 = some (List.replicate 32 1) ∧
      Backend.contains_node db' 1 = true := by
  obtain ⟨db', hrun, hpres, hcomp, _⟩ := fill_spec [(3, List.replicate 32 1), (4, List.replicate 32 2)]
  have h3 : Backend.get db' 3 = some (List.replicate 32 1) := hpres 3 _ (by decide)
  have h4 : Backend.get db' 4 = some (List.replicate 32 2) := hpres 4 _ (by decide)
  exact ⟨db', hrun, h3, hcomp 1 (contains_of_get _ _ _ h3) (contains_of_get _ _ _ h4)⟩

/-! ## Claim C1: the `extract` round trip

The `while visitor > 0` loop of `extract` walks from the resolved node to the
root, collecting the sibling at every level.  `sibs v` is that pure sibling
chain, and `extractIndices v` the full collected index list. -/

theorem fillGo_preserves (fuel : Nat) :
    ∀ (db : Backend) (todo : List Nat) (db' : Backend),
      fillGo fuel db todo = .ok db' →
      ∀ i c, Backend.get db i = some c → Backend.get db' i = some c := by
  induction fuel with
  | zero =>
    intro db todo db' hrun i c hc
    cases hrun
    exact hc
  | succ fuel ih =>
    intro db todo db' hrun i c hc
    cases todo with
    | nil => cases hrun; exact hc
    | cons n rest =>
      by_cases hg : (Backend.contains_node db (2 * parent_index n + 1) &&
          (Backend.contains_node db (2 * parent_index n + 2) &&
           !Backend.contains_node db (parent_index n))) = true
      · obtain ⟨hl, hr, hp⟩ : Backend.contains_node db (2 * parent_index n + 1) = true ∧
            Backend.contains_node db (2 * parent_index n + 2) = true ∧
            Backend.contains_node db (parent_index n) = false := by
          simpa [Bool.and_eq_true] using hg
        obtain ⟨cl, hcl⟩ := get_of_contains _ _ hl
        obtain ⟨cr, hcr⟩ := get_of_contains _ _ hr
        rw [fillGo_cons_true fuel db n rest cl cr hcl hcr hp] at hrun
        refine ih _ _ _ hrun i c ?_
        have hip : i ≠ parent_index n := by
          intro hieq
          rw [hieq, get_of_not_contains _ _ hp] at hc
          cases hc
        rw [get_insert_ne _ _ _ _ hip]
        exact hc
      · rw [fillGo_cons_false fuel db n rest (Bool.not_eq_true _ |>.mp hg)] at hrun
        exact ih _ _ _ hrun i c hc

/-- The sibling chain of the `extract` walk, by structural recursion on a
fuel bound (`v + 1` suffices: the visitor strictly decreases). -/
def sibsGo : Nat → Nat → List Nat
  | 0, _ => []
  | fuel + 1, v => if v > 0 then sibling_index v :: sibsGo fuel ((v + 1) / 2 - 1) else []

/-- The siblings collected by `extract`'s loop when started at visitor `v`. -/
def sibs (v : Nat) : List Nat := sibsGo (v + 1) v

/-- The indices collected by `extract` for a node at index `v`: the node
itself followed by the sibling of each node on the path to the root. -/
def extractIndices (v : Nat) : List Nat := v :: sibs v

theorem sibsGo_congr (f1 : Nat) :
    ∀ (f2 v : Nat), v < f1 → v < f2 → sibsGo f1 v = sibsGo f2 v := by
  induction f1 with
  | zero => intro f2 v h1 _; omega
  | succ f1 ih =>
    intro f2 v h1 h2
    cases f2 with
    | zero => omega
    | succ f2 =>
      simp only [sibsGo]
      by_cases hv : v > 0
      · rw [if_pos hv, if_pos hv]
        have hstep : (v + 1) / 2 - 1 < v := by omega
        rw [ih f2 ((v + 1) / 2 - 1) (by omega) (by omega)]
      · rw [if_neg hv, if_neg hv]

theorem sibs_zero : sibs 0 = [] := rfl

theorem sibs_unfold (v : Nat) (hv : 1 ≤ v) :
    sibs v = sibling_index v :: sibs ((v + 1) / 2 - 1) := by
  unfold sibs
  rw [show sibsGo (v + 1) v = if v > 0 then sibling_index v :: sibsGo v ((v + 1) / 2 - 1) else []
      from rfl,
    if_pos (by omega : v > 0)]
  rw [sibsGo_congr v (((v + 1) / 2 - 1) + 1) ((v + 1) / 2 - 1) (by omega) (by omega)]

theorem mem_sibs_le (v : Nat) : ∀ a ∈ sibs v, a ≤ v + 1 := by
  induction v using Nat.strong_induction_on with
  | _ v ih =>
    rcases Nat.eq_zero_or_pos v with hv | hv
    · subst hv; intro a ha; cases ha
    · intro a ha
      rw [sibs_unfold v hv] at ha
      rcases List.mem_cons.mp ha with ha | ha
      · subst ha
        unfold sibling_index
        by_cases h2 : v % 2 = 1 <;> simp [h2] <;> omega
      · have := ih ((v + 1) / 2 - 1) (by omega) a ha
        omega

theorem sibling_ne_self (v : Nat) (hv : 1 ≤ v) : sibling_index v ≠ v := by
  unfold sibling_index
  by_cases h2 : v % 2 = 1 <;> simp [h2] <;> omega

theorem sibs_nodup (v : Nat) : (sibs v).Nodup := by
  induction v using Nat.strong_induction_on with
  | _ v ih =>
    rcases Nat.eq_zero_or_pos v with hv | hv
    · subst hv; exact List.nodup_nil
    · rw [sibs_unfold v hv]
      refine List.nodup_cons.mpr ⟨?_, ih ((v + 1) / 2 - 1) (by omega)⟩
      intro hmem
      have hle := mem_sibs_le ((v + 1) / 2 - 1) _ hmem
      have hge : v - 1 ≤ sibling_index v := by
        unfold sibling_index
        by_cases h2 : v % 2 = 1 <;> simp [h2] <;> omega
      rcases Nat.lt_or_ge v 4 with hsmall | hlarge
      · interval_cases v
        · exact absurd hmem (by decide)
        · exact absurd hmem (by decide)
        · exact absurd hmem (by decide)
      · omega

theorem extractIndices_nodup (v : Nat) : (extractIndices v).Nodup := by
  unfold extractIndices
  refine List.nodup_cons.mpr ⟨?_, sibs_nodup v⟩
  intro hmem
  rcases Nat.eq_zero_or_pos v with hv | hv
  · subst hv; cases hmem
  · rw [sibs_unfold v hv] at hmem
    rcases List.mem_cons.mp hmem with hmem | hmem
    · exact sibling_ne_self v hv hmem.symm
    · rcases Nat.lt_or_ge v 2 with hsmall | hlarge
      · interval_cases v
        exact absurd hmem (by decide)
      · have hle := mem_sibs_le ((v + 1) / 2 - 1) _ hmem
        omega

/-- The visitor chain (`v`, its parent, …, down to 0), by fuel. -/
def ancsGo : Nat → Nat → List Nat
  | 0, _ => []
  | fuel + 1, v => if v > 0 then v :: ancsGo fuel ((v + 1) / 2 - 1) else [0]

/-- The ancestor-inclusive visitor chain of `v`. -/
def ancs (v : Nat) : List Nat := ancsGo (v + 1) v

theorem ancsGo_congr (f1 : Nat) :
    ∀ (f2 v : Nat), v < f1 → v < f2 → ancsGo f1 v = ancsGo f2 v := by
  induction f1 with
  | zero => intro f2 v h1 _; omega
  | succ f1 ih =>
    intro f2 v h1 h2
    cases f2 with
    | zero => omega
    | succ f2 =>
      simp only [ancsGo]
      by_cases hv : v > 0
      · rw [if_pos hv, if_pos hv, ih f2 ((v + 1) / 2 - 1) (by omega) (by omega)]
      · rw [if_neg hv, if_neg hv]

theorem ancs_zero : ancs 0 = [0] := rfl

theorem ancs_unfold (v : Nat) (hv : 1 ≤ v) :
    ancs v = v :: ancs ((v + 1) / 2 - 1) := by
  unfold ancs
  rw [show ancsGo (v + 1) v = if v > 0 then v :: ancsGo v ((v + 1) / 2 - 1) else [0] from rfl,
    if_pos (by omega : v > 0)]
  rw [ancsGo_congr v (((v + 1) / 2 - 1) + 1) ((v + 1) / 2 - 1) (by omega) (by omega)]

theorem mem_ancs_le (v : Nat) : ∀ a ∈ ancs v, a ≤ v := by
  induction v using Nat.strong_induction_on with
  | _ v ih =>
    rcases Nat.eq_zero_or_pos v with hv | hv
    · subst hv
      intro a ha
      rcases List.mem_cons.mp ha with ha | ha
      · omega
      · cases ha
    · intro a ha
      rw [ancs_unfold v hv] at ha
      rcases List.mem_cons.mp ha with ha | ha
      · omega
      · have := ih ((v + 1) / 2 - 1) (by omega) a ha
        omega

theorem sibling_le_succ (u : Nat) : sibling_index u ≤ u + 1 := by
  unfold sibling_index
  by_cases h2 : u % 2 = 1 <;> simp [h2] <;> omega

/-- A child `x` of `z` is never a child of the sibling of any node on `z`'s
visitor chain: the key disjointness fact behind the `extract` loop's
`contains` test always being false during a straight ascent. -/
theorem child_not_sibchild (x z : Nat) (hx : x = 2 * z + 1 ∨ x = 2 * z + 2) :
    ∀ u ∈ ancs z, 1 ≤ u →
      x ≠ 2 * sibling_index u + 1 ∧ x ≠ 2 * sibling_index u + 2 := by
  rcases Nat.eq_zero_or_pos z with hz | hz
  · subst hz
    intro u hu h1
    rcases List.mem_cons.mp hu with hu | hu
    · omega
    · cases hu
  · intro u hu h1
    rw [ancs_unfold z hz] at hu
    rcases List.mem_cons.mp hu with hu | hu
    · subst hu
      have hne := sibling_ne_self u h1
      rcases hx with hx | hx <;> constructor <;> omega
    · have hle : u ≤ (z + 1) / 2 - 1 := mem_ancs_le _ u hu
      have hsib := sibling_le_succ u
      rcases hx with hx | hx <;> constructor <;> omega

/-- One step of `extract`'s loop, unfolded. -/
theorem extractGo_succ (fuel : Nat) (cache : Backend) (visitor : Nat)
    (indices chunks : List Nat) :
    extractGo (fuel + 1) cache visitor indices chunks =
      if visitor > 0 then
        if indices.contains (2 * sibling_index visitor + 1) &&
           indices.contains (2 * sibling_index visitor + 2) then
          extractGo fuel cache ((visitor + 1) / 2 - 1) indices chunks
        else
          match Backend.get cache (sibling_index visitor) with
          | none => .error (.ChunkNotLoaded (sibling_index visitor))
          | some c =>
            extractGo fuel cache ((visitor + 1) / 2 - 1)
              (indices ++ [sibling_index visitor]) (chunks ++ c)
      else .ok { indices := indices, chunks := chunks } := rfl

theorem extractGo_spec (fuel : Nat) :
    ∀ (cache : Backend) (v : Nat) (acc chunks : List Nat),
      v < fuel →
      (∀ u ∈ ancs v, 1 ≤ u →
        (2 * sibling_index u + 1) ∉ acc ∧ (2 * sibling_index u + 2) ∉ acc) →
      (∀ s ∈ sibs v, ∃ c, Backend.get cache s = some c) →
      extractGo fuel cache v acc chunks =
        .ok { indices := acc ++ sibs v,
              chunks := chunks ++
                ((sibs v).map (fun s => (Backend.get cache s).getD [])).flatten } := by
  induction fuel with
  | zero => intro cache v acc chunks h _ _; omega
  | succ fuel ih =>
    intro cache v acc chunks hlt hJ hpres
    rcases Nat.eq_zero_or_pos v with hv | hv
    · subst hv
      rw [extractGo_succ, if_neg (by omega)]
      simp [sibs_zero]
    · rw [extractGo_succ, if_pos (by omega)]
      have hJv := hJ v (by rw [ancs_unfold v hv]; exact List.mem_cons_self _ _) hv
      have hcl : acc.contains (2 * sibling_index v + 1) = false := by
        rcases hcon : acc.contains (2 * sibling_index v + 1)
        · rfl
        · exact absurd (List.mem_of_elem_eq_true hcon) hJv.1
      rw [hcl, Bool.false_and, if_neg Bool.false_ne_true]
      have hsibmem : sibling_index v ∈ sibs v := by
        rw [sibs_unfold v hv]; exact List.mem_cons_self _ _
      obtain ⟨c, hc⟩ := hpres (sibling_index v) hsibmem
      rw [hc]
      have hother : sibling_index v = 2 * ((v + 1) / 2 - 1) + 1 ∨
          sibling_index v = 2 * ((v + 1) / 2 - 1) + 2 := by
        unfold sibling_index
        by_cases h2 : v % 2 = 1 <;> simp [h2] <;> omega
      have hJ' : ∀ u ∈ ancs ((v + 1) / 2 - 1), 1 ≤ u →
          (2 * sibling_index u + 1) ∉ acc ++ [sibling_index v] ∧
          (2 * sibling_index u + 2) ∉ acc ++ [sibling_index v] := by
        intro u hu h1
        have hstep := child_not_sibchild (sibling_index v) ((v + 1) / 2 - 1) hother u hu h1
        have hold : (2 * sibling_index u + 1) ∉ acc ∧ (2 * sibling_index u + 2) ∉ acc := by
          refine hJ u ?_ h1
          rw [ancs_unfold v hv]
          exact List.mem_cons_of_mem _ hu
        constructor
        · intro hmem
          rcases List.mem_append.mp hmem with hmem | hmem
          · exact hold.1 hmem
          · have heq : 2 * sibling_index u + 1 = sibling_index v := by simpa using hmem
            exact hstep.1 heq.symm
        · intro hmem
          rcases List.mem_append.mp hmem with hmem | hmem
          · exact hold.2 hmem
          · have heq : 2 * sibling_index u + 2 = sibling_index v := by simpa using hmem
            exact hstep.2 heq.symm
      have hpres' : ∀ s ∈ sibs ((v + 1) / 2 - 1), ∃ c, Backend.get cache s = some c := by
        intro s hs
        refine hpres s ?_
        rw [sibs_unfold v hv]
        exact List.mem_cons_of_mem _ hs
      have hrec := ih cache ((v + 1) / 2 - 1) (acc ++ [sibling_index v]) (chunks ++ c)
        (by omega) hJ' hpres'
      show extractGo fuel cache ((v + 1) / 2 - 1) (acc ++ [sibling_index v]) (chunks ++ c) =
        .ok { indices := acc ++ sibs v,
              chunks := chunks ++
                ((sibs v).map (fun s => (Backend.get cache s).getD [])).flatten }
      rw [hrec, sibs_unfold v hv]
      simp only [List.map_cons, List.flatten_cons, List.append_assoc, List.cons_append,
        List.nil_append, hc, Option.getD_some]

theorem self_not_sibchild (v : Nat) (hv : 1 ≤ v) :
    v ≠ 2 * sibling_index v + 1 ∧ v ≠ 2 * sibling_index v + 2 := by
  unfold sibling_index
  by_cases h2 : v % 2 = 1 <;> simp [h2] <;> omega

/-- Full characterisation of a successful `extract`: the collected indices
are exactly the resolved node followed by its sibling chain, with the
corresponding chunks from the cache concatenated in the same order. -/
theorem extract_spec (T : Overlay) (cache : Backend) (path : List PathElement) (node : Node)
    (hne : path ≠ [])
    (hres : T.get_node path = .ok node)
    (hpresent : ∀ s ∈ extractIndices node.index, ∃ c, Backend.get cache s = some c) :
    extract T cache path =
      .ok { indices := extractIndices node.index,
            chunks := ((extractIndices node.index).map
              (fun s => (Backend.get cache s).getD [])).flatten } := by
  obtain ⟨c0, hc0⟩ := hpresent node.index (List.mem_cons_self _ _)
  unfold extract
  have hlen0 : (path.length == 0) = false := by
    cases path with
    | nil => exact absurd rfl hne
    | cons p ps => rfl
  rw [if_neg (by simp [hlen0])]
  rw [hres]
  show (match Backend.get cache node.index with
    | none => Except.error (Error.ChunkNotLoaded node.index)
    | some c => extractGo (node.index + 1) cache node.index [node.index] c) = _
  rw [hc0]
  show extractGo (node.index + 1) cache node.index [node.index] c0 = _
  have hJ0 : ∀ u ∈ ancs node.index, 1 ≤ u →
      (2 * sibling_index u + 1) ∉ [node.index] ∧
      (2 * sibling_index u + 2) ∉ [node.index] := by
    intro u hu h1
    rcases Nat.eq_zero_or_pos node.index with hv | hv
    · rw [hv, ancs_zero] at hu
      rcases List.mem_cons.mp hu with hu | hu
      · omega
      · cases hu
    · rw [ancs_unfold _ hv] at hu
      rcases List.mem_cons.mp hu with hu | hu
      · subst hu
        have hself := self_not_sibchild node.index (by omega)
        constructor
        · intro hmem
          have heq : 2 * sibling_index node.index + 1 = node.index := by simpa using hmem
          exact hself.1 heq.symm
        · intro hmem
          have heq : 2 * sibling_index node.index + 2 = node.index := by simpa using hmem
          exact hself.2 heq.symm
      · have hx : node.index = 2 * ((node.index + 1) / 2 - 1) + 1 ∨
            node.index = 2 * ((node.index + 1) / 2 - 1) + 2 := by omega
        have hch := child_not_sibchild node.index ((node.index + 1) / 2 - 1) hx u hu h1
        constructor
        · intro hmem
          have heq : 2 * sibling_index u + 1 = node.index := by simpa using hmem
          exact hch.1 heq.symm
        · intro hmem
          have heq : 2 * sibling_index u + 2 = node.index := by simpa using hmem
          exact hch.2 heq.symm
  rw [extractGo_spec (node.index + 1) cache node.index [node.index] c0 (by omega) hJ0
    (fun s hs => hpresent s (List.mem_cons_of_mem _ hs))]
  unfold extractIndices
  simp only [List.map_cons, List.flatten_cons, List.cons_append, List.nil_append,
    hc0, Option.getD_some]

/-- The `(index, chunk)` pair list of a serialized proof: the `k`-th index
owns the `k`-th 32-byte window of the flat chunk buffer (spec §3). -/
def pairs (sp : SerializedProof) : List (Nat × List Nat) :=
  sp.indices.enum.map (fun p => (p.snd, window sp.chunks p.fst))

theorem window_cons (a X : List Nat) (k : Nat) (ha : a.length = BYTES_PER_CHUNK) :
    window (a ++ X) (k + 1) = window X k := by
  unfold window
  have h1 : (k + 1) * BYTES_PER_CHUNK = a.length + k * BYTES_PER_CHUNK := by
    rw [ha]; ring
  rw [h1, List.drop_append]

theorem window_here (a X : List Nat) (ha : a.length = BYTES_PER_CHUNK) :
    window (a ++ X) 0 = a := by
  unfold window
  rw [Nat.zero_mul, List.drop_zero, List.take_left' ha]

theorem window_length (chunks : List Nat) (k : Nat)
    (h : BYTES_PER_CHUNK * (k + 1) ≤ chunks.length) :
    (window chunks k).length = BYTES_PER_CHUNK := by
  unfold window
  rw [List.length_take, List.length_drop]
  simp only [BYTES_PER_CHUNK] at h ⊢
  omega

theorem window_flatten (idx : List Nat) (f : Nat → List Nat)
    (hlen : ∀ i ∈ idx, (f i).length = BYTES_PER_CHUNK) :
    ∀ k, (hk : k < idx.length) →
      window ((idx.map f).flatten) k = f (idx.get ⟨k, hk⟩) := by
  induction idx with
  | nil => intro k hk; simp at hk
  | cons i rest ih =>
    intro k hk
    match k with
    | 0 =>
      show window ((f i ++ (rest.map f).flatten)) 0 = f i
      exact window_here _ _ (hlen i (List.mem_cons_self _ _))
    | k + 1 =>
      have hk' : k < rest.length := by simpa using hk
      show window (f i ++ (rest.map f).flatten) (k + 1) = f (rest.get ⟨k, hk'⟩)
      rw [window_cons _ _ _ (hlen i (List.mem_cons_self _ _))]
      exact ih (fun j hj => hlen j (List.mem_cons_of_mem _ hj)) k hk'

theorem enumFrom_map_window (idx : List Nat) :
    ∀ (j : Nat) (f : Nat → List Nat) (w : Nat → List Nat),
      (∀ k, (hk : k < idx.length) → f (idx.get ⟨k, hk⟩) = w (j + k)) →
      (idx.enumFrom j).map (fun p => (p.snd, w p.fst)) = idx.map (fun i => (i, f i)) := by
  induction idx with
  | nil => intro j f w _; rfl
  | cons i rest ih =>
    intro j f w h
    simp only [List.enumFrom, List.map_cons]
    have h0 : f i = w j := by simpa using h 0 (by simp)
    rw [h0]
    congr 1
    apply ih (j + 1) f w
    intro k hk
    have := h (k + 1) (by simpa using Nat.succ_lt_succ hk)
    have harith : j + (k + 1) = j + 1 + k := by omega
    rw [harith] at this
    simpa using this

theorem pairs_flatten (idx : List Nat) (f : Nat → List Nat)
    (hlen : ∀ i ∈ idx, (f i).length = BYTES_PER_CHUNK) :
    pairs { indices := idx, chunks := (idx.map f).flatten } =
      idx.map (fun i => (i, f i)) := by
  unfold pairs
  apply enumFrom_map_window idx 0 f (window ((idx.map f).flatten))
  intro k hk
  rw [Nat.zero_add]
  exact (window_flatten idx f hlen k hk).symm

/-- C1.  For any overlay `T`, any non-empty path resolving to a node at
index `v`, and any `SerializedProof` `sp` that is the minimal proof for that
path — its indices are exactly (a permutation of) the target plus the
sibling chain to the root, with a well-formed chunk buffer — loading `sp`
into a fresh proof, running `fill`, and extracting the same path succeeds
and yields the same set of `(index, chunk)` pairs as `sp`. -/
theorem extract_roundtrip
    (T : Overlay) (path : List PathElement) (node : Node) (sp : SerializedProof)
    (cache filled : Backend)
    (hpath : path ≠ [])
    (hres : T.get_node path = .ok node)
    (hmin : sp.indices.Perm (extractIndices node.index))
    (hlen : sp.chunks.length = BYTES_PER_CHUNK * sp.indices.length)
    (hnew : Proof_new sp = some cache)
    (hfill : fill cache = .ok filled) :
    ∃ res, extract T filled path = .ok res ∧ (pairs res).Perm (pairs sp) := by
  have hnd : sp.indices.Nodup := hmin.nodup_iff.mpr (extractIndices_nodup node.index)
  obtain ⟨db', hload, hother, hget⟩ := loadGo_spec sp.indices 0 [] sp.chunks
    (by rw [hlen]; simp)
  have hcache : db' = cache := by
    have hcombine : some db' = some cache := hload.symm.trans hnew
    exact Option.some.inj hcombine
  rw [hcache] at hget
  have hfillpres : ∀ i c, Backend.get cache i = some c → Backend.get filled i = some c :=
    fillGo_preserves (fillFuel cache) cache (sortDesc (Backend.nodes cache)) filled hfill
  have hcacheget : ∀ k, (hk : k < sp.indices.length) →
      Backend.get cache (sp.indices.get ⟨k, hk⟩) = some (window sp.chunks k) := by
    intro k hk
    have := hget hnd k hk
    simpa using this
  have hbranch : ∀ i ∈ extractIndices node.index, ∃ c, Backend.get filled i = some c := by
    intro i hi
    have hi' : i ∈ sp.indices := hmin.mem_iff.mpr hi
    obtain ⟨⟨k, hk⟩, rfl⟩ := List.mem_iff_get.mp hi'
    exact ⟨window sp.chunks k, hfillpres _ _ (hcacheget k hk)⟩
  have hex := extract_spec T filled path node hpath hres hbranch
  refine ⟨_, hex, ?_⟩
  have hfval : ∀ k, (hk : k < sp.indices.length) →
      (Backend.get filled (sp.indices.get ⟨k, hk⟩)).getD [] = window sp.chunks k := by
    intro k hk
    rw [hfillpres _ _ (hcacheget k hk)]
    rfl
  have hflen : ∀ i ∈ extractIndices node.index,
      ((Backend.get filled i).getD []).length = BYTES_PER_CHUNK := by
    intro i hi
    have hi' : i ∈ sp.indices := hmin.mem_iff.mpr hi
    obtain ⟨⟨k, hk⟩, rfl⟩ := List.mem_iff_get.mp hi'
    rw [hfval k hk]
    apply window_length
    rw [hlen]
    exact Nat.mul_le_mul_left _ (Nat.succ_le_of_lt hk)
  have hpairs_sp : pairs sp =
      sp.indices.map (fun i => (i, (Backend.get filled i).getD [])) := by
    unfold pairs
    apply enumFrom_map_window sp.indices 0 _ (window sp.chunks)
    intro k hk
    rw [Nat.zero_add]
    exact hfval k hk
  rw [pairs_flatten (extractIndices node.index)
    (fun s => (Backend.get filled s).getD []) hflen, hpairs_sp]
  exact (hmin.map _).symm

/-- Witness for C1: the `get_partial_vector` scenario of
`src/tests/simple_fixed_vector.rs` with an all-zero chunk buffer — the
minimal proof `{[5, 6, 1]}` for path `["a", 2]` under
`S { a: FixedVector<U256, U4> }` round-trips through `new`/`fill`/
`extract`. -/
theorem extract_roundtrip_witness :
    ∃ filled res,
      fill [(1, List.replicate 32 0), (6, List.replicate 32 0), (5, List.replicate 32 0)] =
        .ok filled ∧
      extract sOverlay filled [PathElement.Ident "a", PathElement.Index 2] = .ok res ∧
      (pairs res).Perm (pairs { indices := [5, 6, 1], chunks := List.replicate 96 0 }) := by
  obtain ⟨filled, hfill⟩ := fillGo_ok
    (fillFuel [(1, List.replicate 32 0), (6, List.replicate 32 0), (5, List.replicate 32 0)])
    [(1, List.replicate 32 0), (6, List.replicate 32 0), (5, List.replicate 32 0)]
    (sortDesc (Backend.nodes
      [(1, List.replicate 32 0), (6, List.replicate 32 0), (5, List.replicate 32 0)]))
  obtain ⟨res, hex, hperm⟩ := extract_roundtrip sOverlay
    [PathElement.Ident "a", PathElement.Index 2]
    { ident := PathElement.Index 2, index := 5, size := 32, offset := 0,
      height := 0, is_list := false }
    { indices := [5, 6, 1], chunks := List.replicate 96 0 }
    [(1, List.replicate 32 0), (6, List.replicate 32 0), (5, List.replicate 32 0)]
    filled
    (by decide) (by decide)
    (by rw [show extractIndices 5 = [5, 6, 1] from rfl])
    (by decide) (by decide) hfill
  exact ⟨filled, res, hfill, hex, hperm⟩

/-! ## Claim C7: `set_bytes` locality -/

theorem refreshGo_cons (fuel : Nat) (db : Backend) (n : Nat) (rest : List Nat) :
    refreshGo (fuel + 1) db (n :: rest) =
      if n > 0 then
        if Backend.contains_node db (2 * parent_index n + 1) &&
           Backend.contains_node db (2 * parent_index n + 2) then
          match Backend.get db (2 * parent_index n + 1) with
          | none => some (.error (.ChunkNotLoaded (2 * parent_index n + 1)))
          | some cl =>
            match Backend.get db (2 * parent_index n + 2) with
            | none => some (.error (.ChunkNotLoaded (2 * parent_index n + 2)))
            | some cr =>
              refreshGo fuel (Backend.insert db (parent_index n) (hash_children cl cr))
                (rest ++ [parent_index n])
        else refreshGo fuel db rest
      else some (.ok db) := rfl

theorem refreshGo_cons_true (fuel : Nat) (db : Backend) (n : Nat) (rest : List Nat)
    (cl cr : Chunk) (hn : 0 < n)
    (hcl : Backend.get db (2 * parent_index n + 1) = some cl)
    (hcr : Backend.get db (2 * parent_index n + 2) = some cr) :
    refreshGo (fuel + 1) db (n :: rest) =
      refreshGo fuel (Backend.insert db (parent_index n) (hash_children cl cr))
        (rest ++ [parent_index n]) := by
  rw [refreshGo_cons, if_pos hn,
    if_pos (by rw [contains_of_get _ _ _ hcl, contains_of_get _ _ _ hcr]; rfl), hcl, hcr]

theorem refreshGo_cons_skip (fuel : Nat) (db : Backend) (n : Nat) (rest : List Nat)
    (hn : 0 < n)
    (hg : (Backend.contains_node db (2 * parent_index n + 1) &&
           Backend.contains_node db (2 * parent_index n + 2)) = false) :
    refreshGo (fuel + 1) db (n :: rest) = refreshGo fuel db rest := by
  rw [refreshGo_cons, if_pos hn, if_neg (by rw [hg]; exact Bool.false_ne_true)]

theorem refreshGo_monotone (fuel : Nat) :
    ∀ (db : Backend) (todo : List Nat) (db' : Backend),
      refreshGo fuel db todo = some (.ok db') →
      ∀ i, Backend.contains_node db i = true → Backend.contains_node db' i = true := by
  induction fuel with
  | zero => intro db todo db' hrun; cases hrun
  | succ fuel ih =>
    intro db todo db' hrun i hi
    cases todo with
    | nil => cases hrun
    | cons n rest =>
      by_cases hn : 0 < n
      · by_cases hg : (Backend.contains_node db (2 * parent_index n + 1) &&
            Backend.contains_node db (2 * parent_index n + 2)) = true
        · obtain ⟨hl, hr⟩ : Backend.contains_node db (2 * parent_index n + 1) = true ∧
              Backend.contains_node db (2 * parent_index n + 2) = true := by
            simpa [Bool.and_eq_true] using hg
          obtain ⟨cl, hcl⟩ := get_of_contains _ _ hl
          obtain ⟨cr, hcr⟩ := get_of_contains _ _ hr
          rw [refreshGo_cons_true fuel db n rest cl cr hn hcl hcr] at hrun
          refine ih _ _ _ hrun i ?_
          rw [contains_insert, hi, Bool.or_true]
        · rw [refreshGo_cons_skip fuel db n rest hn (Bool.not_eq_true _ |>.mp hg)] at hrun
          exact ih _ _ _ hrun i hi
      · rw [refreshGo_cons, if_neg hn] at hrun
        cases hrun
        exact hi

theorem refreshGo_no_touch (fuel : Nat) :
    ∀ (db : Backend) (todo : List Nat) (db' : Backend) (v : Nat),
      refreshGo fuel db todo = some (.ok db') →
      Backend.contains_node db' (2 * v + 1) = false →
      Backend.get db' v = Backend.get db v := by
  induction fuel with
  | zero => intro db todo db' v hrun; cases hrun
  | succ fuel ih =>
    intro db todo db' v hrun habs
    cases todo with
    | nil => cases hrun
    | cons n rest =>
      by_cases hn : 0 < n
      · by_cases hg : (Backend.contains_node db (2 * parent_index n + 1) &&
            Backend.contains_node db (2 * parent_index n + 2)) = true
        · obtain ⟨hl, hr⟩ : Backend.contains_node db (2 * parent_index n + 1) = true ∧
              Backend.contains_node db (2 * parent_index n + 2) = true := by
            simpa [Bool.and_eq_true] using hg
          obtain ⟨cl, hcl⟩ := get_of_contains _ _ hl
          obtain ⟨cr, hcr⟩ := get_of_contains _ _ hr
          rw [refreshGo_cons_true fuel db n rest cl cr hn hcl hcr] at hrun
          have hvp : v ≠ parent_index n := by
            intro hveq
            have hmono := refreshGo_monotone fuel _ _ _ hrun (2 * v + 1)
              (by rw [contains_insert, hveq, hl, Bool.or_true])
            rw [habs] at hmono
            cases hmono
          rw [ih _ _ _ v hrun habs, get_insert_ne _ _ _ _ hvp]
        · rw [refreshGo_cons_skip fuel db n rest hn (Bool.not_eq_true _ |>.mp hg)] at hrun
          exact ih _ _ _ v hrun habs
      · rw [refreshGo_cons, if_neg hn] at hrun
        cases hrun
        rfl

/-- The monotone/no-overwrite facts lifted to `refresh` itself. -/
theorem refresh_no_touch (db db' : Backend) (v : Nat)
    (hrun : refresh db = some (.ok db'))
    (habs : Backend.contains_node db' (2 * v + 1) = false) :
    Backend.get db' v = Backend.get db v :=
  refreshGo_no_touch (refreshFuel db) db (sortDesc (Backend.nodes db)) db' v hrun habs

/-- The pure result of `set_bytes`' splice when no index panics: byte `i`
becomes `bytes[i - first]` inside `[first, last)` and is kept otherwise. -/
def spliceList (chunk : List Nat) (first last : Nat) (bytes : List Nat) : List Nat :=
  chunk.enum.map (fun p =>
    if first ≤ p.fst ∧ p.fst < last then (bytes[p.fst - first]?).getD 0 else p.snd)

theorem mapM_splice (bytes : List Nat) (first last : Nat)
    (hb : last - first ≤ bytes.length) :
    ∀ l : List (Nat × Nat),
      l.mapM (fun p =>
        if first ≤ p.fst ∧ p.fst < last then bytes[p.fst - first]? else some p.snd) =
      some (l.map (fun p =>
        if first ≤ p.fst ∧ p.fst < last then (bytes[p.fst - first]?).getD 0 else p.snd)) := by
  intro l
  induction l with
  | nil => rfl
  | cons p rest ih =>
    rw [List.mapM_cons]
    by_cases hp : first ≤ p.fst ∧ p.fst < last
    · have hidx : p.fst - first < bytes.length := by omega
      rw [List.map_cons, if_pos hp, if_pos hp, List.getElem?_eq_getElem hidx]
      simp only [ih, Option.bind_eq_bind, Option.some_bind, Option.getD_some]
      rfl
    · rw [List.map_cons, if_neg hp, if_neg hp]
      simp only [ih, Option.bind_eq_bind, Option.some_bind]
      rfl

theorem spliceChunk_eq (chunk : List Nat) (first last : Nat) (bytes : List Nat)
    (hb : last - first ≤ bytes.length) :
    spliceChunk chunk first last bytes = some (spliceList chunk first last bytes) :=
  mapM_splice bytes first last hb chunk.enum

theorem length_spliceList (chunk : List Nat) (first last : Nat) (bytes : List Nat) :
    (spliceList chunk first last bytes).length = chunk.length := by
  simp [spliceList]

theorem getElem?_spliceList (chunk : List Nat) (first last : Nat) (bytes : List Nat)
    (i : Nat) :
    (spliceList chunk first last bytes)[i]? =
      (chunk[i]?).map (fun a =>
        if first ≤ i ∧ i < last then (bytes[i - first]?).getD 0 else a) := by
  simp only [spliceList, List.getElem?_map, List.getElem?_enum]
  cases chunk[i]? <;> rfl

theorem getElem?_drop_take (l : List Nat) (a len i : Nat) :
    ((l.drop a).take len)[i]? = if i < len then l[a + i]? else none := by
  by_cases hi : i < len
  · rw [if_pos hi, List.getElem?_take_of_lt hi, List.getElem?_drop]
  · rw [if_neg hi]
    exact List.getElem?_eq_none (by simp only [List.length_take]; omega)

theorem slice_spliceList_self (chunk bytes : List Nat) (first last : Nat)
    (hlen : bytes.length = last - first)
    (hle : last ≤ chunk.length) (hff : first ≤ last) :
    ((spliceList chunk first last bytes).drop first).take (last - first) = bytes := by
  apply List.ext_getElem?
  intro i
  rw [getElem?_drop_take]
  by_cases hi : i < last - first
  · rw [if_pos hi, getElem?_spliceList]
    have hin : first + i < chunk.length := by omega
    rw [List.getElem?_eq_getElem hin]
    simp only [Option.map_some']
    rw [if_pos ⟨by omega, by omega⟩]
    have harith : first + i - first = i := by omega
    rw [harith]
    have hib : i < bytes.length := by omega
    rw [List.getElem?_eq_getElem hib]
    rfl
  · rw [if_neg hi]
    exact (List.getElem?_eq_none (by omega)).symm

theorem slice_spliceList_other (chunk bytes : List Nat) (first last a b : Nat)
    (hdisj : b ≤ first ∨ last ≤ a) :
    ((spliceList chunk first last bytes).drop a).take (b - a) =
      ((chunk.drop a).take (b - a)) := by
  apply List.ext_getElem?
  intro i
  rw [getElem?_drop_take, getElem?_drop_take]
  by_cases hi : i < b - a
  · rw [if_pos hi, if_pos hi, getElem?_spliceList]
    cases hc : chunk[a + i]? with
    | none => rfl
    | some x =>
      simp only [Option.map_some']
      rw [if_neg (by omega)]
  · rw [if_neg hi, if_neg hi]

theorem helper_eq (T : Overlay) (path : List PathElement) (node : Node)
    (hne : path ≠ [])
    (hres : T.get_node path = .ok node) :
    bytes_at_path_helper T path = .ok (node.index, node.offset, node.offset + node.size) := by
  unfold bytes_at_path_helper
  have hlen0 : (path.length == 0) = false := by
    cases path with
    | nil => exact absurd rfl hne
    | cons p ps => rfl
  rw [if_neg (by simp [hlen0]), hres]

theorem set_bytes_eq (T : Overlay) (cache : Backend) (path : List PathElement)
    (node : Node) (b : List Nat) (chunk : Chunk)
    (hne : path ≠ [])
    (hres : T.get_node path = .ok node)
    (hchunk : Backend.get cache node.index = some chunk)
    (hblen : node.size ≤ b.length) :
    set_bytes T cache path b =
      some (.ok (Backend.insert cache node.index
        (spliceList chunk node.offset (node.offset + node.size) b))) := by
  unfold set_bytes
  have hlen0 : (path.length == 0) = false := by
    cases path with
    | nil => exact absurd rfl hne
    | cons p ps => rfl
  rw [if_neg (by simp [hlen0]), helper_eq T path node hne hres]
  show (match Backend.get cache node.index with
    | none => some (Except.error (Error.ChunkNotLoaded node.index))
    | some chunk =>
      match spliceChunk chunk node.offset (node.offset + node.size) b with
      | none => none
      | some newChunk => some (Except.ok (Backend.insert cache node.index newChunk))) = _
  rw [hchunk]
  show (match spliceChunk chunk node.offset (node.offset + node.size) b with
    | none => none
    | some newChunk => some (Except.ok (Backend.insert cache node.index newChunk))) = _
  rw [spliceChunk_eq chunk node.offset (node.offset + node.size) b (by omega)]

theorem get_bytes_eq (T : Overlay) (db : Backend) (path : List PathElement)
    (node : Node) (chunk : Chunk)
    (hne : path ≠ [])
    (hres : T.get_node path = .ok node)
    (hchunk : Backend.get db node.index = some chunk)
    (hrange : node.offset + node.size ≤ chunk.length) :
    get_bytes T db path =
      some (.ok ((chunk.drop node.offset).take
        ((node.offset + node.size) - node.offset))) := by
  unfold get_bytes
  have hlen0 : (path.length == 0) = false := by
    cases path with
    | nil => exact absurd rfl hne
    | cons p ps => rfl
  rw [if_neg (by simp [hlen0]), helper_eq T path node hne hres]
  show (match Backend.get db node.index with
    | none => some (Except.error (Error.ChunkNotLoaded node.index))
    | some chunk =>
      if node.offset + node.size ≤ chunk.length then
        some (Except.ok ((chunk.drop node.offset).take ((node.offset + node.size) - node.offset)))
      else none) = _
  rw [hchunk]
  show (if node.offset + node.size ≤ chunk.length then
      some (Except.ok ((chunk.drop node.offset).take ((node.offset + node.size) - node.offset)))
    else none) = _
  rw [if_pos hrange]

theorem get_bytes_congr (T : Overlay) (db1 db2 : Backend) (path : List PathElement)
    (node : Node)
    (hne : path ≠ [])
    (hres : T.get_node path = .ok node)
    (hsame : Backend.get db1 node.index = Backend.get db2 node.index) :
    get_bytes T db1 path = get_bytes T db2 path := by
  unfold get_bytes
  have hlen0 : (path.length == 0) = false := by
    cases path with
    | nil => exact absurd rfl hne
    | cons p ps => rfl
  rw [if_neg (by simp [hlen0]), if_neg (by simp [hlen0]),
    helper_eq T path node hne hres]
  show (match Backend.get db1 node.index with
    | none => some (Except.error (Error.ChunkNotLoaded node.index))
    | some chunk =>
      if node.offset + node.size ≤ chunk.length then
        some (Except.ok ((chunk.drop node.offset).take ((node.offset + node.size) - node.offset)))
      else none) =
    (match Backend.get db2 node.index with
    | none => some (Except.error (Error.ChunkNotLoaded node.index))
    | some chunk =>
      if node.offset + node.size ≤ chunk.length then
        some (Except.ok ((chunk.drop node.offset).take ((node.offset + node.size) - node.offset)))
      else none)
  rw [hsame]

/-- C7 amended.  After `set_bytes(p, b)` (which splices `b` into the resolved
range of the resolved chunk) and a `refresh()` that returns normally,
`get_bytes(p)` returns `b` — *provided* the addressed chunk is a true leaf of
the resulting store, i.e. its left child index is absent after `refresh`
(otherwise `refresh` recomputes it as a parent hash, clobbering the write);
under the same proviso every non-overlapping slice, including other fields
packed in the same chunk, reads back unchanged. -/
theorem set_bytes_locality (T : Overlay) (cache : Backend) (path : List PathElement)
    (node : Node) (b : List Nat) (chunk : Chunk)
    (hne : path ≠ [])
    (hres : T.get_node path = .ok node)
    (hchunk : Backend.get cache node.index = some chunk)
    (hclen : chunk.length = BYTES_PER_CHUNK)
    (hrange : node.offset + node.size ≤ BYTES_PER_CHUNK)
    (hblen : b.length = node.size) :
    set_bytes T cache path b =
      some (.ok (Backend.insert cache node.index
        (spliceList chunk node.offset (node.offset + node.size) b))) ∧
    (∀ s2, refresh (Backend.insert cache node.index
          (spliceList chunk node.offset (node.offset + node.size) b)) = some (.ok s2) →
      Backend.contains_node s2 (2 * node.index + 1) = false →
      get_bytes T s2 path = some (.ok b) ∧
      (∀ (q : List PathElement) (nodeq : Node),
        q ≠ [] → T.get_node q = .ok nodeq →
        nodeq.offset + nodeq.size ≤ BYTES_PER_CHUNK →
        Backend.contains_node s2 (2 * nodeq.index + 1) = false →
        (nodeq.index ≠ node.index ∨ nodeq.offset + nodeq.size ≤ node.offset ∨
         node.offset + node.size ≤ nodeq.offset) →
        get_bytes T s2 q = get_bytes T cache q)) := by
  constructor
  · exact set_bytes_eq T cache path node b chunk hne hres hchunk (by omega)
  · intro s2 hrefresh habs
    have hs2v : Backend.get s2 node.index =
        some (spliceList chunk node.offset (node.offset + node.size) b) := by
      rw [refresh_no_touch _ s2 node.index hrefresh habs, get_insert_self]
    constructor
    · rw [get_bytes_eq T s2 path node
        (spliceList chunk node.offset (node.offset + node.size) b) hne hres hs2v
        (by rw [length_spliceList]; omega)]
      rw [slice_spliceList_self chunk b node.offset (node.offset + node.size)
        (by omega) (by omega) (by omega)]
    · intro q nodeq hq hresq hrangeq habsq hdisj
      by_cases hidx : nodeq.index = node.index
      · have hs2q : Backend.get s2 nodeq.index =
            some (spliceList chunk node.offset (node.offset + node.size) b) := by
          rw [hidx]; exact hs2v
        have hcq : Backend.get cache nodeq.index = some chunk := by
          rw [hidx]; exact hchunk
        rw [get_bytes_eq T s2 q nodeq _ hq hresq hs2q
            (by rw [length_spliceList]; omega),
          get_bytes_eq T cache q nodeq chunk hq hresq hcq (by omega)]
        have hdisj' : nodeq.offset + nodeq.size ≤ node.offset ∨
            node.offset + node.size ≤ nodeq.offset := by
          rcases hdisj with h | h | h
          · exact absurd hidx h
          · exact Or.inl h
          · exact Or.inr h
        rw [slice_spliceList_other chunk b node.offset (node.offset + node.size)
          nodeq.offset (nodeq.offset + nodeq.size) hdisj']
      · apply get_bytes_congr T s2 cache q nodeq hq hresq
        rw [refresh_no_touch _ s2 nodeq.index hrefresh habsq,
          get_insert_ne _ _ _ _ hidx]

/-- C7 counterexample: the claim as stated fails when the store also holds
chunks at the children of the addressed index.  Under `FixedVector<u8, U32>`
path `[0]` resolves to chunk 0; with chunks at 1 and 2 present, `refresh`
recomputes chunk 0 as `H(c1 ‖ c2)`, clobbering the `set_bytes` write, and
`get_bytes` does not return the written byte. -/
theorem set_bytes_claim_counterexample :
    ∃ s1 s2,
      set_bytes (collectionOverlay (basicOverlay 8) 32 false)
        [(0, List.replicate 32 0), (1, List.replicate 32 0), (2, List.replicate 32 0)]
        [PathElement.Index 0] [7] = some (.ok s1) ∧
      refresh s1 = some (.ok s2) ∧
      get_bytes (collectionOverlay (basicOverlay 8) 32 false) s2 [PathElement.Index 0] ≠
        some (.ok [7]) := by
  refine ⟨[(0, spliceList (List.replicate 32 0) 0 (0 + 1) [7]),
           (1, List.replicate 32 0), (2, List.replicate 32 0)],
          [(0, hash_children (List.replicate 32 0) (List.replicate 32 0)),
           (1, List.replicate 32 0), (2, List.replicate 32 0)],
          by decide, by decide, by decide⟩

/-- Witness for C7 on `FixedVector<u8, U32>` over the singleton store
`{0 ↦ 0³²}`: write byte `[7]` at index 0, `refresh` (a no-op on the
single-node tree), read it back, and check byte 5 is untouched. -/
theorem set_bytes_locality_witness :
    set_bytes (collectionOverlay (basicOverlay 8) 32 false) [(0, List.replicate 32 0)]
        [PathElement.Index 0] [7] =
      some (.ok (Backend.insert [(0, List.replicate 32 0)] 0
        (spliceList (List.replicate 32 0) 0 (0 + 1) [7]))) ∧
    get_bytes (collectionOverlay (basicOverlay 8) 32 false)
        (Backend.insert [(0, List.replicate 32 0)] 0
          (spliceList (List.replicate 32 0) 0 (0 + 1) [7]))
        [PathElement.Index 0] = some (.ok [7]) ∧
    get_bytes (collectionOverlay (basicOverlay 8) 32 false)
        (Backend.insert [(0, List.replicate 32 0)] 0
          (spliceList (List.replicate 32 0) 0 (0 + 1) [7]))
        [PathElement.Index 5] =
      get_bytes (collectionOverlay (basicOverlay 8) 32 false) [(0, List.replicate 32 0)]
        [PathElement.Index 5] := by
  obtain ⟨h1, h2⟩ := set_bytes_locality (collectionOverlay (basicOverlay 8) 32 false)
    [(0, List.replicate 32 0)] [PathElement.Index 0]
    { ident := PathElement.Index 0, index := 0, size := 1, offset := 0,
      height := 0, is_list := false }
    [7] (List.replicate 32 0)
    (by decide) (by decide) (by decide) (by decide) (by decide) (by decide)
  obtain ⟨h3, h4⟩ := h2 (Backend.insert [(0, List.replicate 32 0)] 0
      (spliceList (List.replicate 32 0) 0 (0 + 1) [7]))
    (by decide) (by decide)
  exact ⟨h1, h3, h4 [PathElement.Index 5]
    { ident := PathElement.Index 5, index := 0, size := 1, offset := 5,
      height := 0, is_list := false }
    (by decide) (by decide) (by decide) (by decide) (by decide)⟩

end MerkleProof
